import Mathlib

/-!
# Day 22: wizard simulator, `src/day_22/run.cpp`

A shallow embedding of the combat model and of the breadth-first search of
`run.cpp`, followed by the properties checked against it.

Conventions of the embedding.

* Every `std::int32_t` field is an `Int`.  Signed overflow is undefined in C++
  (and rejected during constant evaluation, which is how the program calls
  `play`), so the embedding describes the overflow-free executions.
* A function that mutates a `Battle&` and returns a value becomes a function
  returning the value paired with the mutated battle; a `void` mutator returns
  the mutated battle.
* `std::array<Battle, depth>` is a `List Battle` of length `depth`; a subscript
  outside the array is a fault, which `play` reports as `none`.
* The `for` loop over `i < queue.size()` is a recursion on the number of
  iterations that remain, so it is total.
-/

namespace Day22

/-! ## Data model (run.cpp 8-30) -/

structure Boss where
  hit_points : Int
  damage : Int
  deriving DecidableEq, Repr

structure Player where
  hit_points : Int
  armour : Int
  mana : Int
  deriving DecidableEq, Repr

structure Env where
  shield_timer : Int
  poison_timer : Int
  recharge_timer : Int
  deriving DecidableEq, Repr

structure Battle where
  player : Player
  boss : Boss
  env : Env
  cost : Int
  deriving DecidableEq, Repr

/-- The template `can_afford(t, cost)`: `t.mana >= cost`, on the mana field. -/
def can_afford (mana cost : Int) : Bool := decide (mana ≥ cost)

/-- The template `is_dead(t)`: `t.hit_points <= 0`, on the hit-point field. -/
def is_dead (hit_points : Int) : Bool := decide (hit_points ≤ 0)

/-! ## Spells (run.cpp 44-83) -/

def magic_missile_cost : Int := 53

def magic_missile (battle : Battle) : Int × Battle :=
  let battle := { battle with player := { battle.player with mana := battle.player.mana - magic_missile_cost } }
  let battle := { battle with boss := { battle.boss with hit_points := battle.boss.hit_points - 4 } }
  (magic_missile_cost, battle)

def drain_cost : Int := 73

def drain (battle : Battle) : Int × Battle :=
  let battle := { battle with player := { battle.player with mana := battle.player.mana - drain_cost } }
  let battle := { battle with boss := { battle.boss with hit_points := battle.boss.hit_points - 2 } }
  let battle := { battle with player := { battle.player with hit_points := battle.player.hit_points + 2 } }
  (drain_cost, battle)

def shield_cost : Int := 113

def shield (battle : Battle) : Int × Battle :=
  let battle := { battle with player := { battle.player with mana := battle.player.mana - shield_cost } }
  let battle := { battle with env := { battle.env with shield_timer := 6 } }
  (shield_cost, battle)

def poison_cost : Int := 173

def poison (battle : Battle) : Int × Battle :=
  let battle := { battle with player := { battle.player with mana := battle.player.mana - poison_cost } }
  let battle := { battle with env := { battle.env with poison_timer := 6 } }
  (poison_cost, battle)

def recharge_cost : Int := 229

def recharge (battle : Battle) : Int × Battle :=
  let battle := { battle with player := { battle.player with mana := battle.player.mana - recharge_cost } }
  let battle := { battle with env := { battle.env with recharge_timer := 5 } }
  (recharge_cost, battle)

/-! ## Effects (run.cpp 87-104) -/

def turn_on_shield (battle : Battle) : Battle :=
  let battle := { battle with player := { battle.player with armour := 7 } }
  { battle with env := { battle.env with shield_timer := battle.env.shield_timer - 1 } }

def turn_off_shield (battle : Battle) : Battle :=
  { battle with player := { battle.player with armour := 0 } }

def turn_on_poison (battle : Battle) : Battle :=
  let battle := { battle with boss := { battle.boss with hit_points := battle.boss.hit_points - 3 } }
  { battle with env := { battle.env with poison_timer := battle.env.poison_timer - 1 } }

def turn_on_recharge (battle : Battle) : Battle :=
  let battle := { battle with player := { battle.player with mana := battle.player.mana + 101 } }
  { battle with env := { battle.env with recharge_timer := battle.env.recharge_timer - 1 } }

/-! ## Boss strike (run.cpp 108-111) -/

def strike (battle : Battle) : Battle :=
  let damage := max (battle.boss.damage - battle.player.armour) 1
  { battle with player := { battle.player with hit_points := battle.player.hit_points - damage } }

/-! ## Play game (run.cpp 115-190) -/

def apply_effects (battle : Battle) : Battle :=
  let battle := if battle.env.shield_timer > 0 then turn_on_shield battle else turn_off_shield battle
  let battle := if battle.env.poison_timer > 0 then turn_on_poison battle else battle
  let battle := if battle.env.recharge_timer > 0 then turn_on_recharge battle else battle
  battle

/-- The array `next_actions`: the five (cost, spell) pairs in source order. -/
def next_actions : List (Int × (Battle → Int × Battle)) :=
  [ (magic_missile_cost, magic_missile),
    (drain_cost, drain),
    (shield_cost, shield),
    (poison_cost, poison),
    (recharge_cost, recharge) ]

/-- The lambda of `play_impl` applied to one entry of `next_actions`. -/
def play_impl_one (battle : Battle) (next_action : Int × (Battle → Int × Battle)) : Option Battle :=
  if !is_dead battle.player.hit_points && can_afford battle.player.mana next_action.1 then
    let next_battle := battle
    let result := next_action.2 next_battle
    let next_battle := result.2
    some { next_battle with cost := next_battle.cost + result.1 }
  else
    none

/-- The function `play_impl`: one optional successor per entry of `next_actions`. -/
def play_impl (battle : Battle) : List (Option Battle) :=
  next_actions.map (play_impl_one battle)

/-- The value-initialised `Battle{}` that fills `std::array<Battle, depth>{}`. -/
def zero_battle : Battle :=
  { player := { hit_points := 0, armour := 0, mana := 0 },
    boss := { hit_points := 0, damage := 0 },
    env := { shield_timer := 0, poison_timer := 0, recharge_timer := 0 },
    cost := 0 }

/-- How the body of the inner `for` of `play` leaves: it falls through to the
next outer iteration, or `play` returns. -/
inductive Flow where
  | fallthrough (queue : List Battle) (j : Nat)
  | returned (answer : Bool × Int) (queue : List Battle) (j : Nat)
  deriving DecidableEq, Repr

/-- The inner loop of `play` (run.cpp 169-187) over the candidates still to be
visited, threading the queue and the write cursor `j`. -/
def play_inner : List (Option Battle) → List Battle → Nat → Flow
  | [], queue, j => Flow.fallthrough queue j
  | none :: rest, queue, j => play_inner rest queue j
  | some maybe_next_battle :: rest, queue, j =>
    let next_battle := apply_effects maybe_next_battle
    if is_dead next_battle.boss.hit_points then
      Flow.returned (true, next_battle.cost) queue j
    else
      let next_battle := strike next_battle
      if is_dead next_battle.player.hit_points then
        play_inner rest queue j
      else if j < queue.length then
        play_inner rest (queue.set j next_battle) (j + 1)
      else
        Flow.returned (false, 0) queue j

/-- What a call of `play` leaves behind: the returned tuple, the queue and the
write cursor at the return, and the index `i` at which the outer loop stopped
(`queue.size()` when it ran to its end). -/
structure Run where
  answer : Bool × Int
  queue : List Battle
  j : Nat
  i : Nat
  deriving DecidableEq, Repr

/-- The outer loop of `play` (run.cpp 157-189); the first argument counts the
iterations that remain, `queue.size() - i`. -/
def play_loop (is_hard_mode : Bool) : Nat → Nat → List Battle → Nat → Option Run
  | 0, i, queue, j => some { answer := (false, 0), queue := queue, j := j, i := i }
  | n + 1, i, queue, j =>
    match queue[i]? with
    | none => none
    | some battle =>
      let battle :=
        if is_hard_mode then
          { battle with player := { battle.player with hit_points := battle.player.hit_points - 1 } }
        else battle
      if is_hard_mode && is_dead battle.player.hit_points then
        play_loop is_hard_mode n (i + 1) queue j
      else
        let battle := apply_effects battle
        if is_dead battle.boss.hit_points then
          some { answer := (false, 0), queue := queue, j := j, i := i }
        else
          match play_inner (play_impl battle) queue j with
          | Flow.returned answer queue j => some { answer := answer, queue := queue, j := j, i := i }
          | Flow.fallthrough queue j => play_loop is_hard_mode n (i + 1) queue j

/-- The function `play<is_hard_mode, depth>(original)` with its final frontier;
`none` is the out-of-range `queue[0] = original` of an empty array. -/
def play_run (is_hard_mode : Bool) (depth : Nat) (original : Battle) : Option Run :=
  let queue := List.replicate depth zero_battle
  if 0 < queue.length then
    play_loop is_hard_mode queue.length 0 (queue.set 0 original) 1
  else
    none

/-- The tuple returned by `play<is_hard_mode, depth>(original)`. -/
def play (is_hard_mode : Bool) (depth : Nat) (original : Battle) : Option (Bool × Int) :=
  (play_run is_hard_mode depth original).map Run.answer

/-! ## Reference definitions and sample battles -/

/-- Effect Resolution as the specification words it: three independent checks,
each on the timer as it is on entry. -/
def apply_effects_spec (b : Battle) : Battle :=
  { player :=
      { hit_points := b.player.hit_points,
        armour := if b.env.shield_timer > 0 then 7 else 0,
        mana := if b.env.recharge_timer > 0 then b.player.mana + 101 else b.player.mana },
    boss :=
      { hit_points := if b.env.poison_timer > 0 then b.boss.hit_points - 3 else b.boss.hit_points,
        damage := b.boss.damage },
    env :=
      { shield_timer := if b.env.shield_timer > 0 then b.env.shield_timer - 1 else b.env.shield_timer,
        poison_timer := if b.env.poison_timer > 0 then b.env.poison_timer - 1 else b.env.poison_timer,
        recharge_timer :=
          if b.env.recharge_timer > 0 then b.env.recharge_timer - 1 else b.env.recharge_timer },
    cost := b.cost }

/-- A battle in which all three timed effects are running and the player can
pay for every spell. -/
def recast_battle : Battle :=
  { player := { hit_points := 50, armour := 7, mana := 500 },
    boss := { hit_points := 58, damage := 9 },
    env := { shield_timer := 3, poison_timer := 2, recharge_timer := 1 },
    cost := 0 }

/-- A battle whose three timers are each on their last tick. -/
def last_tick_battle : Battle :=
  { player := { hit_points := 50, armour := 7, mana := 500 },
    boss := { hit_points := 58, damage := 9 },
    env := { shield_timer := 1, poison_timer := 1, recharge_timer := 1 },
    cost := 0 }

/-- A battle whose three timers all have several ticks left. -/
def long_effects_battle : Battle :=
  { player := { hit_points := 50, armour := 0, mana := 500 },
    boss := { hit_points := 58, damage := 9 },
    env := { shield_timer := 6, poison_timer := 2, recharge_timer := 5 },
    cost := 0 }

/-! ## Rounds and action sequences

The search of `play` read as a game: what one outer iteration does to the
battle it dequeues, for one chosen entry of `next_actions`. -/

/-- The head of an outer iteration of `play` (run.cpp 158-165): hard-mode
attrition, then `apply_effects`; `none` is the `continue` of a dead player. -/
def upkeep (is_hard_mode : Bool) (battle : Battle) : Option Battle :=
  let battle :=
    if is_hard_mode then
      { battle with player := { battle.player with hit_points := battle.player.hit_points - 1 } }
    else battle
  if is_hard_mode && is_dead battle.player.hit_points then none else some (apply_effects battle)

/-- What becomes of one candidate of `play_impl`, the capacity check aside. -/
inductive Outcome where
  | win (cost : Int)
  | next (battle : Battle)
  | stop
  deriving DecidableEq, Repr

/-- The body of the inner loop of `play` (run.cpp 170-181) on one candidate:
a missing candidate and a dead player are skipped, a dead boss is a win, a
survivor goes on to the frontier. -/
def settle : Option Battle → Outcome
  | none => Outcome.stop
  | some maybe_next_battle =>
    let next_battle := apply_effects maybe_next_battle
    if is_dead next_battle.boss.hit_points then
      Outcome.win next_battle.cost
    else
      let next_battle := strike next_battle
      if is_dead next_battle.player.hit_points then Outcome.stop else Outcome.next next_battle

/-- One round from a dequeued battle with the entry `k` of `next_actions`:
upkeep, the cast, the effects and the boss strike.  A boss already dead after
the upkeep stops the round (`play` returns `(false, 0)` there). -/
def play_round (is_hard_mode : Bool) (battle : Battle) (k : Nat) : Outcome :=
  match upkeep is_hard_mode battle with
  | none => Outcome.stop
  | some battle =>
    if is_dead battle.boss.hit_points then Outcome.stop
    else settle ((play_impl battle).getD k none)

/-- The battle stored after playing the entries `ks` in turn, each round
leaving a survivor. -/
def reach (is_hard_mode : Bool) : Battle → List Nat → Option Battle
  | battle, [] => some battle
  | battle, k :: ks =>
    match play_round is_hard_mode battle k with
    | Outcome.next battle => reach is_hard_mode battle ks
    | _ => none

/-- The cost at which the entries `ks`, played in turn, kill the boss in the
round of the last one; `none` when they do not. -/
def wins_with (is_hard_mode : Bool) : Battle → List Nat → Option Int
  | _, [] => none
  | battle, k :: ks =>
    match play_round is_hard_mode battle k with
    | Outcome.win cost => if ks.isEmpty then some cost else none
    | Outcome.next battle => wins_with is_hard_mode battle ks
    | Outcome.stop => none

/-- The cost of the entry `k` of `next_actions` (0 past its end). -/
def catalog_cost (k : Nat) : Int :=
  (next_actions.map Prod.fst).getD k 0

/-! ## The search as a queue of pending battles

`scan` and `bfs` describe the two loops of `play` on the battles written and
not yet dequeued, with the number of free slots in place of the array. -/

/-- The inner loop of `play` with `room` free slots: the early return if there
is one, and the battles stored until then. -/
def scan : List (Option Battle) → Nat → Option (Bool × Int) × List Battle
  | [], _ => (none, [])
  | candidate :: rest, room =>
    match settle candidate with
    | Outcome.stop => scan rest room
    | Outcome.win cost => (some (true, cost), [])
    | Outcome.next battle =>
      match room with
      | 0 => (some (false, 0), [])
      | room + 1 => ((scan rest room).1, battle :: (scan rest room).2)

/-- The outer loop of `play` on the pending battles: `n` iterations remain and
`room` slots are free. -/
def bfs (is_hard_mode : Bool) : Nat → Nat → List Battle → Bool × Int
  | 0, _, _ => (false, 0)
  | _ + 1, _, [] => (false, 0)
  | n + 1, room, battle :: pending =>
    match upkeep is_hard_mode battle with
    | none => bfs is_hard_mode n room pending
    | some battle =>
      if is_dead battle.boss.hit_points then (false, 0)
      else
        match scan (play_impl battle) room with
        | (some answer, _) => answer
        | (none, stored) => bfs is_hard_mode n (room - stored.length) (pending ++ stored)

/-! ## Battles of the scenarios -/

/-- Scenario 1: Player(10, 0, 250) against Boss(13, 8). -/
def scenario_1 : Battle :=
  { player := { hit_points := 10, armour := 0, mana := 250 },
    boss := { hit_points := 13, damage := 8 },
    env := { shield_timer := 0, poison_timer := 0, recharge_timer := 0 },
    cost := 0 }

/-- A weak boss: three magic missiles (159) beat it in three rounds, poison
and a magic missile (226) in two. -/
def slow_win_battle : Battle :=
  { player := { hit_points := 100, armour := 0, mana := 1000 },
    boss := { hit_points := 12, damage := 1 },
    env := { shield_timer := 0, poison_timer := 0, recharge_timer := 0 },
    cost := 0 }

/-- Player(3, 0, 226) against Boss(14, 1): poison then magic missile leave the
boss at 1 hit point with poison running. -/
def upkeep_kill_battle : Battle :=
  { player := { hit_points := 3, armour := 0, mana := 226 },
    boss := { hit_points := 14, damage := 1 },
    env := { shield_timer := 0, poison_timer := 0, recharge_timer := 0 },
    cost := 0 }

/-- Player(50, 0, 500) against Boss(3, 9) with one tick of poison left: the
first upkeep kills the boss. -/
def initial_kill_battle : Battle :=
  { player := { hit_points := 50, armour := 0, mana := 500 },
    boss := { hit_points := 3, damage := 9 },
    env := { shield_timer := 0, poison_timer := 1, recharge_timer := 0 },
    cost := 0 }

/-! ## The layers of the search -/

/-- No entry of `next_actions` wins the round played from `battle`. -/
def Quiet (is_hard_mode : Bool) (battle : Battle) : Prop :=
  ∀ k c, play_round is_hard_mode battle k ≠ Outcome.win c

/-- The pending battles split as `cur ++ nxt`: `cur` holds what is left of
the battles `m` rounds away from `original`, `nxt` their survivors found so
far; every battle fewer than `m` rounds away has been expanded without a
win. -/
def Layered (is_hard_mode : Bool) (original : Battle) (m : Nat) (cur nxt : List Battle) : Prop :=
  (∀ ks s, ks.length < m → reach is_hard_mode original ks = some s → Quiet is_hard_mode s) ∧
  (∀ ks s, ks.length = m → reach is_hard_mode original ks = some s →
    s ∈ cur ∨ (Quiet is_hard_mode s ∧
      ∀ k v, play_round is_hard_mode s k = Outcome.next v → v ∈ nxt)) ∧
  (∀ s, s ∈ cur → ∃ ks, ks.length = m ∧ reach is_hard_mode original ks = some s) ∧
  (∀ s, s ∈ nxt → ∃ ks, ks.length = m + 1 ∧ reach is_hard_mode original ks = some s)

/-! ## Further battles and invariants -/

/-- The battle compiled into the program: Player(50, 0, 500) against
Boss(58, 9). -/
def compiled_battle : Battle :=
  { player := { hit_points := 50, armour := 0, mana := 500 },
    boss := { hit_points := 58, damage := 9 },
    env := { shield_timer := 0, poison_timer := 0, recharge_timer := 0 },
    cost := 0 }

/-- A living player with 52 mana against a living boss. -/
def broke_battle : Battle :=
  { player := { hit_points := 50, armour := 0, mana := 52 },
    boss := { hit_points := 58, damage := 9 },
    env := { shield_timer := 0, poison_timer := 0, recharge_timer := 0 },
    cost := 0 }

/-- A player on the last hit point against a boss that is already dead. -/
def last_breath_battle : Battle :=
  { player := { hit_points := 1, armour := 0, mana := 500 },
    boss := { hit_points := 0, damage := 9 },
    env := { shield_timer := 0, poison_timer := 0, recharge_timer := 0 },
    cost := 0 }

/-- The shield of a stored battle: the timer is 0 with no armour, or 1, 3 or 5
with armour 7. -/
def ShieldOk (s : Battle) : Prop :=
  (s.env.shield_timer = 0 ∧ s.player.armour = 0) ∨
  ((s.env.shield_timer = 1 ∨ s.env.shield_timer = 3 ∨ s.env.shield_timer = 5) ∧
    s.player.armour = 7)

/-- Every written battle but the first was stored by a round played from a
battle written before it. -/
def Parented (is_hard_mode : Bool) (w : List Battle) : Prop :=
  ∀ p, 0 < p → p < w.length →
    ∃ q k s v, q < p ∧ w[q]? = some s ∧ w[p]? = some v ∧
      play_round is_hard_mode s k = Outcome.next v

/-! ## The layers of the search as lists -/

/-- The boss dies in the upkeep of a dequeued battle, where `play` returns
`(false, 0)`. -/
def Hazard (is_hard_mode : Bool) (s : Battle) : Prop :=
  ∃ t, upkeep is_hard_mode s = some t ∧ is_dead t.boss.hit_points = true

/-- The battle a candidate stores, if it stores one. -/
def next_of (candidate : Option Battle) : Option Battle :=
  match settle candidate with
  | Outcome.next battle => some battle
  | _ => none

/-- The battles stored by expanding a dequeued battle, in the order of
`next_actions`, when nothing cuts the expansion short. -/
def children (is_hard_mode : Bool) (s : Battle) : List Battle :=
  match upkeep is_hard_mode s with
  | none => []
  | some t => if is_dead t.boss.hit_points then [] else (play_impl t).filterMap next_of

/-- The battles `k` rounds away from the battles of `l`, in queue order. -/
def layer_of (is_hard_mode : Bool) : Nat → List Battle → List Battle
  | 0, l => l
  | k + 1, l => layer_of is_hard_mode k (l.flatMap (children is_hard_mode))

/-- The number of battles in the layers `0 .. k - 1` from `original`. -/
def dequeued_upto (is_hard_mode : Bool) (original : Battle) : Nat → Nat
  | 0 => 0
  | k + 1 => dequeued_upto is_hard_mode original k + (layer_of is_hard_mode k [original]).length

/-- The number of battles in the layers `1 .. k` from `original`. -/
def stored_upto (is_hard_mode : Bool) (original : Battle) : Nat → Nat
  | 0 => 0
  | k + 1 => stored_upto is_hard_mode original k + (layer_of is_hard_mode (k + 1) [original]).length

/-! ## Looking ahead a bounded number of rounds -/

/-- Within `R` rounds of `s` no upkeep kills the boss, and the boss is killed
by a cast only in the round `R`, at a cost that `allowed` accepts. -/
def Good (is_hard_mode : Bool) (allowed : Int → Bool) (R : Nat) (s : Battle) : Prop :=
  ∀ ks s', ks.length < R → reach is_hard_mode s ks = some s' →
    ¬ Hazard is_hard_mode s' ∧
    ∀ a c, play_round is_hard_mode s' a = Outcome.win c → ks.length + 1 = R ∧ allowed c = true


/-! ## The rounds on natural numbers

The look-ahead and the count below run on the fields of a battle as natural
numbers, with the primitive operations of `Nat`, so that they can be evaluated
on the battle compiled into the program. -/

/-- The battle with the given fields against a boss of damage 9. -/
def mk_battle (hp mana bhp arm st pt rt cost : Nat) : Battle :=
  { player := { hit_points := hp, armour := arm, mana := mana },
    boss := { hit_points := bhp, damage := 9 },
    env := { shield_timer := st, poison_timer := pt, recharge_timer := rt },
    cost := cost }

/-- The number 1 for a running timer, 0 for a timer at 0. -/
def positive (t : Nat) : Nat := Nat.sub t (Nat.sub t 1)

/-- The head of an iteration on natural numbers: `skip` when the player cannot
act, `hazard` when the upkeep kills the boss, else `k` on the fields after the
upkeep. -/
def fast_node {α : Type} (hardN hp mana bhp st pt rt : Nat) (skip hazard : α)
    (k : Nat → Nat → Nat → Nat → Nat → Nat → α) : α :=
  match Nat.ble hp hardN with
  | true => skip
  | false =>
    match Nat.ble bhp (Nat.mul 3 (positive pt)) with
    | true => hazard
    | false =>
      k (Nat.sub hp hardN) (Nat.add mana (Nat.mul 101 (positive rt)))
        (Nat.sub bhp (Nat.mul 3 (positive pt))) (Nat.sub st 1) (Nat.sub pt 1) (Nat.sub rt 1)

/-- One candidate on natural numbers, from the fields after the upkeep and the
timers after the cast: the spell costs `c`, takes `dmg` from the boss and
gives `heal` to the player. -/
def fast_cast {α : Type} (c dmg heal hp mana bhp st pt rt cost : Nat) (stop : α)
    (win : Nat → α) (next : Nat → Nat → Nat → Nat → Nat → Nat → Nat → Nat → α) : α :=
  match Nat.ble c mana with
  | false => stop
  | true =>
    match Nat.ble bhp (Nat.add dmg (Nat.mul 3 (positive pt))) with
    | true => win (Nat.add cost c)
    | false =>
      match Nat.ble (Nat.add hp heal) (Nat.sub 9 (Nat.mul 7 (positive st))) with
      | true => stop
      | false =>
        next (Nat.sub (Nat.add hp heal) (Nat.sub 9 (Nat.mul 7 (positive st))))
          (Nat.add (Nat.sub mana c) (Nat.mul 101 (positive rt)))
          (Nat.sub bhp (Nat.add dmg (Nat.mul 3 (positive pt))))
          (Nat.mul 7 (positive st)) (Nat.sub st 1) (Nat.sub pt 1) (Nat.sub rt 1)
          (Nat.add cost c)

/-- The entry `a` of `next_actions` on natural numbers, from the fields after
the upkeep. -/
def fast_entry {α : Type} (a hp mana bhp st pt rt cost : Nat) (stop : α)
    (win : Nat → α) (next : Nat → Nat → Nat → Nat → Nat → Nat → Nat → Nat → α) : α :=
  match a with
  | 0 => fast_cast 53 4 0 hp mana bhp st pt rt cost stop win next
  | 1 => fast_cast 73 2 2 hp mana bhp st pt rt cost stop win next
  | 2 => fast_cast 113 0 0 hp mana bhp 6 pt rt cost stop win next
  | 3 => fast_cast 173 0 0 hp mana bhp st 6 rt cost stop win next
  | 4 => fast_cast 229 0 0 hp mana bhp st pt 5 cost stop win next
  | _ => stop

/-- One round on natural numbers. -/
def fast_round (hardN hp mana bhp st pt rt cost a : Nat) : Outcome :=
  fast_node hardN hp mana bhp st pt rt Outcome.stop Outcome.stop
    fun hp mana bhp st pt rt =>
      fast_entry a hp mana bhp st pt rt cost Outcome.stop (fun c => Outcome.win c)
        (fun hp mana bhp arm st pt rt cost => Outcome.next (mk_battle hp mana bhp arm st pt rt cost))

/-- The number of battles `r` rounds away from a battle, on natural
numbers. -/
def fcount (hardN : Nat) : Nat → Nat → Nat → Nat → Nat → Nat → Nat → Nat → Nat → Nat
  | 0, _, _, _, _, _, _, _, _ => 1
  | r + 1, hp, mana, bhp, _, st, pt, rt, cost =>
    fast_node hardN hp mana bhp st pt rt 0 0 fun hp mana bhp st pt rt =>
      Nat.add (fast_cast 53 4 0 hp mana bhp st pt rt cost 0 (fun _ => 0) (fcount hardN r))
      (Nat.add (fast_cast 73 2 2 hp mana bhp st pt rt cost 0 (fun _ => 0) (fcount hardN r))
      (Nat.add (fast_cast 113 0 0 hp mana bhp 6 pt rt cost 0 (fun _ => 0) (fcount hardN r))
      (Nat.add (fast_cast 173 0 0 hp mana bhp st 6 rt cost 0 (fun _ => 0) (fcount hardN r))
        (fast_cast 229 0 0 hp mana bhp st pt 5 cost 0 (fun _ => 0) (fcount hardN r)))))

/-- A win is accepted in the last round only, at a cost between `lo` and
`hi`. -/
def win_ok (lo hi r c : Nat) : Bool :=
  match r with
  | 0 => and (Nat.ble lo c) (Nat.ble c hi)
  | _ + 1 => false

/-- The look-ahead of `r` rounds on natural numbers: a battle whose boss has
more than ten hit points per round left is not expanded. -/
def fcheck (hardN lo hi : Nat) : Nat → Nat → Nat → Nat → Nat → Nat → Nat → Nat → Nat → Bool
  | 0, _, _, _, _, _, _, _, _ => true
  | r + 1, hp, mana, bhp, _, st, pt, rt, cost =>
    match Nat.ble (Nat.add (Nat.mul 10 r) 11) bhp with
    | true => true
    | false =>
      fast_node hardN hp mana bhp st pt rt (Nat.beq hardN 1) false fun hp mana bhp st pt rt =>
        and (fast_cast 53 4 0 hp mana bhp st pt rt cost true (win_ok lo hi r) (fcheck hardN lo hi r))
        (and (fast_cast 73 2 2 hp mana bhp st pt rt cost true (win_ok lo hi r) (fcheck hardN lo hi r))
        (and (fast_cast 113 0 0 hp mana bhp 6 pt rt cost true (win_ok lo hi r) (fcheck hardN lo hi r))
        (and (fast_cast 173 0 0 hp mana bhp st 6 rt cost true (win_ok lo hi r) (fcheck hardN lo hi r))
          (fast_cast 229 0 0 hp mana bhp st pt 5 cost true (win_ok lo hi r)
            (fcheck hardN lo hi r)))))

/-- The cost bounds of `win_ok` on the costs of the model. -/
def cost_between (lo hi : Nat) (c : Int) : Bool := decide ((lo : Int) ≤ c ∧ c ≤ (hi : Int))

/-- The battles stored by one candidate, as a list. -/
def seq_of (o : Outcome) : List Battle :=
  match o with
  | Outcome.next v => [v]
  | _ => []

/-- The verdict of the look-ahead on one outcome of a round. -/
def verdict (hard : Bool) (lo hi r : Nat) (o : Outcome) : Prop :=
  match o with
  | Outcome.stop => True
  | Outcome.win c => r = 0 ∧ cost_between lo hi c = true
  | Outcome.next v => Good hard (cost_between lo hi) r v

/-- The constant `easy_mode_answer`: `play<false, 1048576>` on the compiled
battle. -/
def easy_mode_answer : Option (Bool × Int) := play false 1048576 compiled_battle

/-- The constant `hard_mode_answer`: `play<true, 1048576>` on the compiled
battle. -/
def hard_mode_answer : Option (Bool × Int) := play true 1048576 compiled_battle

/-! ### The effects and the legality test in closed form -/

theorem apply_effects_eq_spec (b : Battle) : apply_effects b = apply_effects_spec b := by
  obtain ⟨⟨php, arm, mana⟩, ⟨bhp, dmg⟩, ⟨st, pt, rt⟩, cost⟩ := b
  simp only [apply_effects, apply_effects_spec, turn_on_shield, turn_off_shield, turn_on_poison,
    turn_on_recharge]
  by_cases h1 : st > 0 <;> by_cases h2 : pt > 0 <;> by_cases h3 : rt > 0 <;> simp [h1, h2, h3]

theorem play_impl_one_eq (b : Battle) (cost : Int) (action : Battle → Int × Battle) :
    play_impl_one b (cost, action)
      = if 0 < b.player.hit_points ∧ cost ≤ b.player.mana then
          some { (action b).2 with cost := (action b).2.cost + (action b).1 }
        else none := by
  unfold play_impl_one is_dead can_afford
  by_cases h1 : 0 < b.player.hit_points <;> by_cases h2 : cost ≤ b.player.mana <;>
    simp [h1, h2, not_le.mpr, not_lt.mp]

/-! ### The inner loop on a padded queue -/

theorem scan_length_le : ∀ (cands : List (Option Battle)) (room : Nat),
    (scan cands room).2.length ≤ room := by
  intro cands
  induction cands with
  | nil => intro room; simp [scan]
  | cons cand rest ih =>
    intro room
    unfold scan
    cases hs : settle cand with
    | stop => simpa using ih room
    | win c => simp
    | next v =>
      cases room with
      | zero => simp
      | succ room =>
        have := ih room
        simp only [List.length_cons]
        omega

theorem set_append_replicate (w : List Battle) (r : Nat) (v : Battle) :
    (w ++ List.replicate (r + 1) zero_battle).set w.length v
      = (w ++ [v]) ++ List.replicate r zero_battle := by
  rw [List.set_append_right _ _ (le_refl _)]
  simp [List.replicate_succ]

theorem play_inner_scan : ∀ (cands : List (Option Battle)) (w : List Battle) (r : Nat),
    play_inner cands (w ++ List.replicate r zero_battle) w.length
      = match (scan cands r).1 with
        | some answer =>
          Flow.returned answer
            (w ++ (scan cands r).2 ++ List.replicate (r - (scan cands r).2.length) zero_battle)
            (w ++ (scan cands r).2).length
        | none =>
          Flow.fallthrough
            (w ++ (scan cands r).2 ++ List.replicate (r - (scan cands r).2.length) zero_battle)
            (w ++ (scan cands r).2).length := by
  intro cands
  induction cands with
  | nil => intro w r; simp [scan, play_inner]
  | cons cand rest ih =>
    intro w r
    cases cand with
    | none =>
      simp only [play_inner, scan, settle]
      exact ih w r
    | some nb =>
      simp only [play_inner, scan, settle]
      by_cases h1 : is_dead (apply_effects nb).boss.hit_points = true
      · simp [h1]
      · simp only [h1, Bool.false_eq_true, if_false]
        by_cases h2 : is_dead (strike (apply_effects nb)).player.hit_points = true
        · simp only [h2, if_true]
          exact ih w r
        · simp only [h2, Bool.false_eq_true, if_false]
          cases r with
          | zero => simp
          | succ r =>
            have hlt : w.length < (w ++ List.replicate (r + 1) zero_battle).length := by
              simp
            simp only [hlt, if_true]
            rw [set_append_replicate]
            have := ih (w ++ [strike (apply_effects nb)]) r
            simp only [List.length_append, List.length_singleton] at this
            rw [this]
            cases hs : (scan rest r).1 <;> simp [Nat.add_assoc, Nat.add_comm 1]
theorem play_loop_succ (hard : Bool) (n i : Nat) (queue : List Battle) (j : Nat) (b : Battle)
    (h : queue[i]? = some b) :
    play_loop hard (n + 1) i queue j
      = match upkeep hard b with
        | none => play_loop hard n (i + 1) queue j
        | some t =>
          if is_dead t.boss.hit_points then
            some { answer := (false, 0), queue := queue, j := j, i := i }
          else
            match play_inner (play_impl t) queue j with
            | Flow.returned answer queue j => some { answer := answer, queue := queue, j := j, i := i }
            | Flow.fallthrough queue j => play_loop hard n (i + 1) queue j := by
  rw [play_loop]
  simp only [h, upkeep]
  cases hard
  · simp
  · by_cases hd : is_dead (b.player.hit_points - 1) = true
    · simp [hd]
    · simp [hd]

theorem play_loop_fault (hard : Bool) (n i : Nat) (queue : List Battle) (j : Nat)
    (h : queue[i]? = none) : play_loop hard (n + 1) i queue j = none := by
  rw [play_loop]
  simp [h]

theorem upkeep_zero_battle (hard : Bool) :
    upkeep hard zero_battle = if hard then none else some zero_battle := by
  cases hard <;> decide

/-- Once the loop reads only zero-initialised slots it returns `(false, 0)`. -/
theorem play_loop_exhausted (hard : Bool) : ∀ (n i : Nat) (queue : List Battle) (j : Nat),
    (∀ p, i ≤ p → p < queue.length → queue[p]? = some zero_battle) →
    n + i = queue.length →
    (play_loop hard n i queue j).map Run.answer = some (false, 0) := by
  intro n
  induction n with
  | zero => intro i queue j _ _; simp [play_loop]
  | succ n ih =>
    intro i queue j hz hlen
    have hi : queue[i]? = some zero_battle := hz i (le_refl _) (by omega)
    rw [play_loop_succ hard n i queue j zero_battle hi, upkeep_zero_battle]
    cases hard
    · simp [zero_battle, is_dead]
    · simp only [if_true]
      exact ih (i + 1) queue j (fun p hp hlt => hz p (by omega) hlt) (by omega)

theorem getElem?_padded_left (w : List Battle) (r i : Nat) (h : i < w.length) :
    (w ++ List.replicate r zero_battle)[i]? = w[i]? := by
  rw [List.getElem?_append_left h]

theorem getElem?_padded_right (w : List Battle) (r p : Nat) (h1 : w.length ≤ p)
    (h2 : p < (w ++ List.replicate r zero_battle).length) :
    (w ++ List.replicate r zero_battle)[p]? = some zero_battle := by
  rw [List.getElem?_append_right h1]
  simp only [List.length_append, List.length_replicate] at h2
  rw [List.getElem?_replicate]
  simp; omega

/-- The outer loop of `play` on a queue of written battles `w` followed by
zero-initialised slots answers as `bfs` does on the battles still pending. -/
theorem play_loop_bfs (hard : Bool) : ∀ (n i : Nat) (w : List Battle) (r : Nat),
    i ≤ w.length → n + i = w.length + r →
    (play_loop hard n i (w ++ List.replicate r zero_battle) w.length).map Run.answer
      = some (bfs hard n r (w.drop i)) := by
  intro n
  induction n with
  | zero => intro i w r _ _; simp [play_loop, bfs]
  | succ n ih =>
    intro i w r hi hlen
    rcases Nat.lt_or_ge i w.length with hlt | hge
    · have hb : (w ++ List.replicate r zero_battle)[i]? = some (w.get ⟨i, hlt⟩) := by
        rw [getElem?_padded_left w r i hlt]
        simp
      have hdrop : w.drop i = w.get ⟨i, hlt⟩ :: w.drop (i + 1) := by
        exact List.drop_eq_getElem_cons hlt
      rw [play_loop_succ hard n i _ _ _ hb, hdrop, bfs]
      cases hu : upkeep hard (w.get ⟨i, hlt⟩) with
      | none =>
        simp only
        exact ih (i + 1) w r (by omega) (by omega)
      | some t =>
        simp only
        by_cases hd : is_dead t.boss.hit_points = true
        · simp [hd]
        · simp only [hd, Bool.false_eq_true, if_false]
          rw [play_inner_scan]
          have hl := scan_length_le (play_impl t) r
          cases hs : (scan (play_impl t) r).1 with
          | some a =>
            have : scan (play_impl t) r = (some a, (scan (play_impl t) r).2) := by
              rw [← hs]
            rw [this]
            simp
          | none =>
            have : scan (play_impl t) r = (none, (scan (play_impl t) r).2) := by
              rw [← hs]
            rw [this]
            simp only
            have h := ih (i + 1) (w ++ (scan (play_impl t) r).2)
              (r - (scan (play_impl t) r).2.length)
              (by simp only [List.length_append]; omega)
              (by simp only [List.length_append]; omega)
            rw [List.drop_append_of_le_length (by omega)] at h
            exact h
    · have hi' : i = w.length := by omega
      subst hi'
      rw [List.drop_length]
      have : bfs hard (n + 1) r [] = (false, 0) := by simp [bfs]
      rw [this]
      apply play_loop_exhausted
      · intro p hp hlt
        exact getElem?_padded_right w r p hp hlt
      · simp only [List.length_append, List.length_replicate]
        omega

/-- The function `play` answers as `bfs` does from the single pending battle. -/
theorem play_eq_bfs (hard : Bool) (depth : Nat) (original : Battle) :
    play hard (depth + 1) original = some (bfs hard (depth + 1) depth [original]) := by
  unfold play play_run
  simp only [List.length_replicate, Nat.zero_lt_succ, if_true]
  have hq : (List.replicate (depth + 1) zero_battle).set 0 original
      = [original] ++ List.replicate depth zero_battle := by
    simp [List.replicate_succ]
  rw [hq]
  exact play_loop_bfs hard (depth + 1) 0 [original] depth (by simp) (by simp; omega)

theorem play_zero (hard : Bool) (original : Battle) : play hard 0 original = none := by
  simp [play, play_run]

/-! ### The answer does not depend on spare capacity -/

theorem scan_mono : ∀ (cands : List (Option Battle)) (r r' : Nat), r ≤ r' →
    (∀ a, (scan cands r).1 = some a → a.1 = true) → scan cands r' = scan cands r := by
  intro cands
  induction cands with
  | nil => intro r r' _ _; simp [scan]
  | cons cand rest ih =>
    intro r r' hle hok
    unfold scan at hok ⊢
    cases hs : settle cand with
    | stop =>
      simp only [hs] at hok ⊢
      exact ih r r' hle hok
    | win c => simp
    | next v =>
      simp only [hs] at hok ⊢
      cases r with
      | zero => simpa using hok (false, 0)
      | succ r =>
        cases r' with
        | zero => omega
        | succ r' =>
          simp only at hok ⊢
          rw [ih r r' (by omega) hok]

theorem bfs_mono (hard : Bool) (c : Int) : ∀ (n n' r r' : Nat) (pending : List Battle),
    n ≤ n' → r ≤ r' → bfs hard n r pending = (true, c) → bfs hard n' r' pending = (true, c) := by
  intro n
  induction n with
  | zero => intro n' r r' pending _ _ h; simp [bfs] at h
  | succ n ih =>
    intro n' r r' pending hn hr h
    cases n' with
    | zero => omega
    | succ n' =>
      cases pending with
      | nil => simp [bfs] at h
      | cons b rest =>
        rw [bfs] at h ⊢
        cases hu : upkeep hard b with
        | none =>
          simp only [hu] at h ⊢
          exact ih n' r r' rest (by omega) hr h
        | some t =>
          simp only [hu] at h ⊢
          by_cases hd : is_dead t.boss.hit_points = true
          · simp [hd] at h
          · simp only [hd, Bool.false_eq_true, if_false] at h ⊢
            have hok : ∀ a, (scan (play_impl t) r).1 = some a → a.1 = true := by
              intro a ha
              have : scan (play_impl t) r = (some a, (scan (play_impl t) r).2) := by rw [← ha]
              rw [this] at h
              simp only at h
              rw [h]
            rw [scan_mono (play_impl t) r r' hr hok]
            cases hs : (scan (play_impl t) r).1 with
            | some a =>
              have : scan (play_impl t) r = (some a, (scan (play_impl t) r).2) := by rw [← hs]
              rw [this] at h ⊢
              exact h
            | none =>
              have : scan (play_impl t) r = (none, (scan (play_impl t) r).2) := by rw [← hs]
              rw [this] at h ⊢
              simp only at h ⊢
              exact ih n' _ _ _ (by omega) (by omega) h

/-- A win found with capacity `depth` is found with every larger capacity. -/
theorem play_true_mono (hard : Bool) (depth depth' : Nat) (b : Battle) (c : Int)
    (h : play hard depth b = some (true, c)) (hle : depth ≤ depth') :
    play hard depth' b = some (true, c) := by
  cases depth with
  | zero => simp [play_zero] at h
  | succ d =>
    cases depth' with
    | zero => omega
    | succ d' =>
      rw [play_eq_bfs] at h ⊢
      rw [bfs_mono hard c (d + 1) (d' + 1) d d' [b] (by omega) (by omega) (Option.some.inj h)]

/-! ### What a pass of the inner loop stores and returns -/

theorem scan_stored : ∀ (cands : List (Option Battle)) (r : Nat) (v : Battle),
    v ∈ (scan cands r).2 → ∃ x, x ∈ cands ∧ settle x = Outcome.next v := by
  intro cands
  induction cands with
  | nil => intro r v h; simp [scan] at h
  | cons cand rest ih =>
    intro r v h
    unfold scan at h
    cases hs : settle cand with
    | stop =>
      simp only [hs] at h
      obtain ⟨x, hx, hv⟩ := ih r v h
      exact ⟨x, List.mem_cons_of_mem _ hx, hv⟩
    | win c => simp [hs] at h
    | next u =>
      simp only [hs] at h
      cases r with
      | zero => simp at h
      | succ r =>
        simp only [List.mem_cons] at h
        rcases h with h | h
        · exact ⟨cand, List.mem_cons_self _ _, by rw [hs, h]⟩
        · obtain ⟨x, hx, hv⟩ := ih r v h
          exact ⟨x, List.mem_cons_of_mem _ hx, hv⟩

theorem scan_win : ∀ (cands : List (Option Battle)) (r : Nat) (c : Int),
    (scan cands r).1 = some (true, c) → ∃ x, x ∈ cands ∧ settle x = Outcome.win c := by
  intro cands
  induction cands with
  | nil => intro r c h; simp [scan] at h
  | cons cand rest ih =>
    intro r c h
    unfold scan at h
    cases hs : settle cand with
    | stop =>
      simp only [hs] at h
      obtain ⟨x, hx, hv⟩ := ih r c h
      exact ⟨x, List.mem_cons_of_mem _ hx, hv⟩
    | win c' =>
      simp only [hs, Option.some.injEq, Prod.mk.injEq, true_and] at h
      exact ⟨cand, List.mem_cons_self _ _, by rw [hs, h]⟩
    | next u =>
      simp only [hs] at h
      cases r with
      | zero => simp at h
      | succ r =>
        simp only at h
        obtain ⟨x, hx, hv⟩ := ih r c h
        exact ⟨x, List.mem_cons_of_mem _ hx, hv⟩

theorem scan_none : ∀ (cands : List (Option Battle)) (r : Nat),
    (scan cands r).1 = none →
    (∀ x, x ∈ cands → ∀ c, settle x ≠ Outcome.win c) ∧
    (∀ x, x ∈ cands → ∀ v, settle x = Outcome.next v → v ∈ (scan cands r).2) := by
  intro cands
  induction cands with
  | nil => intro r _; simp
  | cons cand rest ih =>
    intro r h
    unfold scan at h ⊢
    cases hs : settle cand with
    | stop =>
      simp only [hs] at h ⊢
      obtain ⟨h1, h2⟩ := ih r h
      constructor
      · intro x hx c
        rcases List.mem_cons.mp hx with hx | hx
        · rw [hx, hs]; simp
        · exact h1 x hx c
      · intro x hx v hv
        rcases List.mem_cons.mp hx with hx | hx
        · rw [hx, hs] at hv; simp at hv
        · exact h2 x hx v hv
    | win c => simp [hs] at h
    | next u =>
      simp only [hs] at h ⊢
      cases r with
      | zero => simp at h
      | succ r =>
        simp only at h ⊢
        obtain ⟨h1, h2⟩ := ih r h
        constructor
        · intro x hx c
          rcases List.mem_cons.mp hx with hx | hx
          · rw [hx, hs]; simp
          · exact h1 x hx c
        · intro x hx v hv
          rcases List.mem_cons.mp hx with hx | hx
          · rw [hx, hs] at hv
            simp only [Outcome.next.injEq] at hv
            rw [hv]; exact List.mem_cons_self _ _
          · exact List.mem_cons_of_mem _ (h2 x hx v hv)

/-! ### Rounds -/

theorem play_round_of_upkeep_none (hard : Bool) (b : Battle) (k : Nat)
    (h : upkeep hard b = none) : play_round hard b k = Outcome.stop := by
  simp [play_round, h]

theorem play_round_of_upkeep (hard : Bool) (b t : Battle) (k : Nat)
    (h : upkeep hard b = some t) (hd : ¬ is_dead t.boss.hit_points = true) :
    play_round hard b k = settle ((play_impl t).getD k none) := by
  simp [play_round, h, hd]

theorem mem_of_settle_getD (cands : List (Option Battle)) (k : Nat)
    (h : settle (cands.getD k none) ≠ Outcome.stop) : cands.getD k none ∈ cands := by
  rcases Nat.lt_or_ge k cands.length with hk | hk
  · rw [List.getD_eq_getElem _ _ hk]
    exact List.getElem_mem hk
  · rw [List.getD_eq_default _ _ hk] at h
    exact absurd rfl h

theorem getD_of_mem (cands : List (Option Battle)) (x : Option Battle) (h : x ∈ cands) :
    ∃ k, cands.getD k none = x := by
  obtain ⟨k, hk, hx⟩ := List.getElem_of_mem h
  exact ⟨k, by rw [List.getD_eq_getElem _ _ hk, hx]⟩

/-! ### Action sequences -/

theorem reach_snoc (hard : Bool) : ∀ (ks : List Nat) (b s v : Battle) (k : Nat),
    reach hard b ks = some s → play_round hard s k = Outcome.next v →
    reach hard b (ks ++ [k]) = some v := by
  intro ks
  induction ks with
  | nil =>
    intro b s v k h hr
    simp only [reach, Option.some.injEq] at h
    subst h
    simp [reach, hr]
  | cons k0 ks ih =>
    intro b s v k h hr
    simp only [reach, List.cons_append] at h ⊢
    cases hp : play_round hard b k0 with
    | next u =>
      simp only [hp] at h ⊢
      exact ih u s v k h hr
    | win c => simp [hp] at h
    | stop => simp [hp] at h

theorem reach_snoc_inv (hard : Bool) : ∀ (ks : List Nat) (b v : Battle) (k : Nat),
    reach hard b (ks ++ [k]) = some v →
    ∃ s, reach hard b ks = some s ∧ play_round hard s k = Outcome.next v := by
  intro ks
  induction ks with
  | nil =>
    intro b v k h
    simp only [reach, List.nil_append] at h
    cases hp : play_round hard b k with
    | next u =>
      simp only [hp, Option.some.injEq] at h
      exact ⟨b, rfl, by rw [hp, h]⟩
    | win c => simp [hp] at h
    | stop => simp [hp] at h
  | cons k0 ks ih =>
    intro b v k h
    simp only [reach, List.cons_append] at h ⊢
    cases hp : play_round hard b k0 with
    | next u =>
      simp only [hp] at h ⊢
      exact ih u v k h
    | win c => simp [hp] at h
    | stop => simp [hp] at h

theorem wins_with_snoc (hard : Bool) : ∀ (ks : List Nat) (b s : Battle) (k : Nat) (c : Int),
    reach hard b ks = some s → play_round hard s k = Outcome.win c →
    wins_with hard b (ks ++ [k]) = some c := by
  intro ks
  induction ks with
  | nil =>
    intro b s k c h hr
    simp only [reach, Option.some.injEq] at h
    subst h
    simp [wins_with, hr]
  | cons k0 ks ih =>
    intro b s k c h hr
    simp only [reach, wins_with, List.cons_append] at h ⊢
    cases hp : play_round hard b k0 with
    | next u =>
      simp only [hp] at h ⊢
      exact ih u s k c h hr
    | win c => simp [hp] at h
    | stop => simp [hp] at h

theorem wins_with_inv (hard : Bool) : ∀ (ks : List Nat) (b : Battle) (c : Int),
    wins_with hard b ks = some c →
    ∃ ks0 k s, ks = ks0 ++ [k] ∧ reach hard b ks0 = some s ∧
      play_round hard s k = Outcome.win c := by
  intro ks
  induction ks with
  | nil => intro b c h; simp [wins_with] at h
  | cons k0 ks ih =>
    intro b c h
    simp only [wins_with] at h
    cases hp : play_round hard b k0 with
    | next u =>
      simp only [hp] at h
      obtain ⟨ks0, k, s, hks, hr, hw⟩ := ih u c h
      refine ⟨k0 :: ks0, k, s, by rw [hks]; rfl, ?_, hw⟩
      simp [reach, hp, hr]
    | win c' =>
      simp only [hp] at h
      by_cases he : ks.isEmpty = true
      · simp only [he, if_true, Option.some.injEq] at h
        have : ks = [] := List.isEmpty_iff.mp he
        subst this
        exact ⟨[], k0, b, rfl, rfl, by rw [hp, h]⟩
      · simp [he] at h
    | stop => simp [hp] at h
/-! ### Breadth-first order -/

theorem layered_init (hard : Bool) (b : Battle) : Layered hard b 0 [b] [] := by
  refine ⟨?_, ?_, ?_, ?_⟩
  · intro ks s h; omega
  · intro ks s hlen hr
    have : ks = [] := List.length_eq_zero.mp hlen
    subst this
    simp only [reach, Option.some.injEq] at hr
    left; rw [← hr]; exact List.mem_singleton_self _
  · intro s hs
    rw [List.mem_singleton] at hs
    exact ⟨[], rfl, by rw [hs]; rfl⟩
  · intro s hs; simp at hs

theorem layered_shift (hard : Bool) (b : Battle) (m : Nat) (nxt : List Battle)
    (h : Layered hard b m [] nxt) : Layered hard b (m + 1) nxt [] := by
  obtain ⟨h1, h2, _, h4⟩ := h
  have hq : ∀ ks s, ks.length = m → reach hard b ks = some s →
      Quiet hard s ∧ ∀ k v, play_round hard s k = Outcome.next v → v ∈ nxt := by
    intro ks s hlen hr
    rcases h2 ks s hlen hr with hm | hm
    · simp at hm
    · exact hm
  refine ⟨?_, ?_, h4, ?_⟩
  · intro ks s hlen hr
    rcases Nat.lt_or_ge ks.length m with hlt | hge
    · exact h1 ks s hlt hr
    · exact (hq ks s (by omega) hr).1
  · intro ks s hlen hr
    left
    rcases List.eq_nil_or_concat ks with hnil | ⟨ks0, k, hks⟩
    · subst hnil; simp at hlen
    · subst hks
      rw [List.concat_eq_append] at hr hlen
      obtain ⟨s0, hr0, hp⟩ := reach_snoc_inv hard ks0 b s k hr
      have hlen0 : ks0.length = m := by simpa using hlen
      exact (hq ks0 s0 hlen0 hr0).2 k s hp
  · intro s hs; simp at hs

theorem layered_skip (hard : Bool) (b0 : Battle) (m : Nat) (b : Battle) (cur nxt : List Battle)
    (h : Layered hard b0 m (b :: cur) nxt) (hu : upkeep hard b = none) :
    Layered hard b0 m cur nxt := by
  obtain ⟨h1, h2, h3, h4⟩ := h
  refine ⟨h1, ?_, fun s hs => h3 s (List.mem_cons_of_mem _ hs), h4⟩
  intro ks s hlen hr
  rcases h2 ks s hlen hr with hm | hm
  · rcases List.mem_cons.mp hm with hm | hm
    · right
      subst hm
      constructor
      · intro k c; rw [play_round_of_upkeep_none hard s k hu]; simp
      · intro k v hv; rw [play_round_of_upkeep_none hard s k hu] at hv; simp at hv
    · left; exact hm
  · right; exact hm

theorem layered_expand (hard : Bool) (b0 : Battle) (m : Nat) (b t : Battle)
    (cur nxt : List Battle) (room : Nat)
    (h : Layered hard b0 m (b :: cur) nxt) (hu : upkeep hard b = some t)
    (hd : ¬ is_dead t.boss.hit_points = true) (hs : (scan (play_impl t) room).1 = none) :
    Layered hard b0 m cur (nxt ++ (scan (play_impl t) room).2) := by
  obtain ⟨h1, h2, h3, h4⟩ := h
  obtain ⟨hn1, hn2⟩ := scan_none (play_impl t) room hs
  refine ⟨h1, ?_, fun s hs => h3 s (List.mem_cons_of_mem _ hs), ?_⟩
  · intro ks s hlen hr
    rcases h2 ks s hlen hr with hm | hm
    · rcases List.mem_cons.mp hm with hm | hm
      · right
        subst hm
        constructor
        · intro k c hw
          rw [play_round_of_upkeep hard s t k hu hd] at hw
          have hmem := mem_of_settle_getD (play_impl t) k (by rw [hw]; simp)
          exact hn1 _ hmem c hw
        · intro k v hv
          rw [play_round_of_upkeep hard s t k hu hd] at hv
          have hmem := mem_of_settle_getD (play_impl t) k (by rw [hv]; simp)
          exact List.mem_append_right _ (hn2 _ hmem v hv)
      · left; exact hm
    · right
      exact ⟨hm.1, fun k v hv => List.mem_append_left _ (hm.2 k v hv)⟩
  · intro s hs
    rcases List.mem_append.mp hs with hs | hs
    · exact h4 s hs
    · obtain ⟨x, hx, hv⟩ := scan_stored (play_impl t) room s hs
      obtain ⟨k, hk⟩ := getD_of_mem (play_impl t) x hx
      obtain ⟨ks, hlen, hr⟩ := h3 b (List.mem_cons_self _ _)
      refine ⟨ks ++ [k], by simp [hlen], ?_⟩
      apply reach_snoc hard ks b0 b s k hr
      rw [play_round_of_upkeep hard b t k hu hd, hk, hv]

/-- One dequeue of `bfs` from a layered queue whose current layer is not
empty, given the result for the iterations that remain. -/
theorem bfs_layered_step (hard : Bool) (b0 : Battle) (c : Int) (n : Nat)
    (ih : ∀ (room m : Nat) (cur nxt : List Battle), Layered hard b0 m cur nxt →
      bfs hard n room (cur ++ nxt) = (true, c) →
      ∃ ks, wins_with hard b0 ks = some c ∧
        ∀ ks' c', wins_with hard b0 ks' = some c' → ks.length ≤ ks'.length)
    (room m : Nat) (b : Battle) (cur nxt : List Battle)
    (hl : Layered hard b0 m (b :: cur) nxt)
    (h : bfs hard (n + 1) room (b :: (cur ++ nxt)) = (true, c)) :
    ∃ ks, wins_with hard b0 ks = some c ∧
      ∀ ks' c', wins_with hard b0 ks' = some c' → ks.length ≤ ks'.length := by
  rw [bfs] at h
  cases hu : upkeep hard b with
  | none =>
    simp only [hu] at h
    exact ih room m cur nxt (layered_skip hard b0 m b cur nxt hl hu) h
  | some t =>
    simp only [hu] at h
    by_cases hd : is_dead t.boss.hit_points = true
    · simp [hd] at h
    · simp only [hd, Bool.false_eq_true, if_false] at h
      cases hs : (scan (play_impl t) room).1 with
      | some a =>
        have he : scan (play_impl t) room = (some a, (scan (play_impl t) room).2) := by
          rw [← hs]
        rw [he] at h
        simp only at h
        subst h
        obtain ⟨x, hx, hw⟩ := scan_win (play_impl t) room c hs
        obtain ⟨k, hk⟩ := getD_of_mem (play_impl t) x hx
        obtain ⟨h1, _, h3, _⟩ := hl
        obtain ⟨ks, hlen, hr⟩ := h3 b (List.mem_cons_self _ _)
        refine ⟨ks ++ [k], ?_, ?_⟩
        · apply wins_with_snoc hard ks b0 b k c hr
          rw [play_round_of_upkeep hard b t k hu hd, hk, hw]
        · intro ks' c' hw'
          obtain ⟨ks0, k', s', hks, hr', hp'⟩ := wins_with_inv hard ks' b0 c' hw'
          rcases Nat.lt_or_ge ks0.length m with hlt | hge
          · exact absurd hp' (h1 ks0 s' hlt hr' k' c')
          · subst hks
            simp only [List.length_append, List.length_singleton]
            omega
      | none =>
        have he : scan (play_impl t) room = (none, (scan (play_impl t) room).2) := by
          rw [← hs]
        rw [he] at h
        simp only at h
        rw [List.append_assoc] at h
        exact ih _ m cur _ (layered_expand hard b0 m b t cur nxt room hl hu hd hs) h

theorem bfs_layered (hard : Bool) (b0 : Battle) (c : Int) : ∀ (n room m : Nat)
    (cur nxt : List Battle), Layered hard b0 m cur nxt →
    bfs hard n room (cur ++ nxt) = (true, c) →
    ∃ ks, wins_with hard b0 ks = some c ∧
      ∀ ks' c', wins_with hard b0 ks' = some c' → ks.length ≤ ks'.length := by
  intro n
  induction n with
  | zero => intro room m cur nxt _ h; simp [bfs] at h
  | succ n ih =>
    intro room m cur nxt hl h
    cases cur with
    | nil =>
      cases nxt with
      | nil => simp [bfs] at h
      | cons b nxt =>
        have hl' := layered_shift hard b0 m (b :: nxt) hl
        apply bfs_layered_step hard b0 c n ih room (m + 1) b nxt [] hl'
        simpa using h
    | cons b cur =>
      exact bfs_layered_step hard b0 c n ih room m b cur nxt hl h
/-! ### Costs along a path -/

theorem apply_effects_cost (b : Battle) : (apply_effects b).cost = b.cost := by
  rw [apply_effects_eq_spec]; rfl

theorem strike_cost (b : Battle) : (strike b).cost = b.cost := rfl

theorem upkeep_cost (hard : Bool) (b t : Battle) (h : upkeep hard b = some t) :
    t.cost = b.cost := by
  unfold upkeep at h
  cases hard
  · simp only [Bool.false_eq_true, if_false, Bool.false_and, Option.some.injEq] at h
    rw [← h, apply_effects_cost]
  · simp only [if_true, Bool.true_and] at h
    split_ifs at h
    simp only [Option.some.injEq] at h
    rw [← h, apply_effects_cost]

theorem catalog_cost_nonneg (k : Nat) : 0 ≤ catalog_cost k := by
  rcases k with _ | _ | _ | _ | _ | k <;> simp [catalog_cost, next_actions, magic_missile_cost,
    drain_cost, shield_cost, poison_cost, recharge_cost]

theorem play_impl_cost (b nb : Battle) (k : Nat) (h : (play_impl b).getD k none = some nb) :
    nb.cost = b.cost + catalog_cost k ∧ catalog_cost k ∈ [53, 73, 113, 173, 229] := by
  rcases k with _ | _ | _ | _ | _ | k
  case succ.succ.succ.succ.succ =>
    simp [play_impl, next_actions] at h
  all_goals
    simp only [play_impl, next_actions, List.map, List.getD_cons_succ, List.getD_cons_zero,
      play_impl_one_eq] at h
    split_ifs at h
    simp only [Option.some.injEq] at h
    subst h
    simp [catalog_cost, next_actions, magic_missile_cost, drain_cost, shield_cost,
      poison_cost, recharge_cost, magic_missile, drain, shield, poison, recharge]

theorem settle_next_cost (nb v : Battle) (h : settle (some nb) = Outcome.next v) :
    v.cost = nb.cost := by
  simp only [settle] at h
  split_ifs at h
  simp only [Outcome.next.injEq] at h
  rw [← h, strike_cost, apply_effects_cost]

theorem settle_win_cost (nb : Battle) (c : Int) (h : settle (some nb) = Outcome.win c) :
    c = nb.cost := by
  simp only [settle] at h
  split_ifs at h
  simp only [Outcome.win.injEq] at h
  rw [← h, apply_effects_cost]

theorem play_round_next_cost (hard : Bool) (b v : Battle) (k : Nat)
    (h : play_round hard b k = Outcome.next v) :
    v.cost = b.cost + catalog_cost k ∧ catalog_cost k ∈ [53, 73, 113, 173, 229] := by
  unfold play_round at h
  cases hu : upkeep hard b with
  | none => simp [hu] at h
  | some t =>
    simp only [hu] at h
    split_ifs at h
    cases hc : (play_impl t).getD k none with
    | none => rw [hc] at h; simp [settle] at h
    | some nb =>
      rw [hc] at h
      have h1 := play_impl_cost t nb k hc
      rw [settle_next_cost nb v h, h1.1, upkeep_cost hard b t hu]
      exact ⟨rfl, h1.2⟩

theorem reach_cost (hard : Bool) : ∀ (ks : List Nat) (b s : Battle),
    reach hard b ks = some s → s.cost = b.cost + (ks.map catalog_cost).sum := by
  intro ks
  induction ks with
  | nil =>
    intro b s h
    simp only [reach, Option.some.injEq] at h
    simp [h]
  | cons k ks ih =>
    intro b s h
    simp only [reach] at h
    cases hp : play_round hard b k with
    | next v =>
      simp only [hp] at h
      rw [ih v s h, (play_round_next_cost hard b v k hp).1]
      simp only [List.map_cons, List.sum_cons]
      ring
    | win c => simp [hp] at h
    | stop => simp [hp] at h

theorem reach_append_inv (hard : Bool) : ∀ (ks ks' : List Nat) (b s' : Battle),
    reach hard b (ks ++ ks') = some s' →
    ∃ s, reach hard b ks = some s ∧ reach hard s ks' = some s' := by
  intro ks
  induction ks with
  | nil => intro ks' b s' h; exact ⟨b, rfl, h⟩
  | cons k ks ih =>
    intro ks' b s' h
    simp only [reach, List.cons_append] at h ⊢
    cases hp : play_round hard b k with
    | next v =>
      simp only [hp] at h ⊢
      exact ih ks' v s' h
    | win c => simp [hp] at h
    | stop => simp [hp] at h

/-! ### What the frontier holds -/

theorem upkeep_zero_battle_dead (hard : Bool) (t : Battle)
    (h : upkeep hard zero_battle = some t) : is_dead t.boss.hit_points = true := by
  rw [upkeep_zero_battle] at h
  cases hard
  · simp only [Bool.false_eq_true, if_false, Option.some.injEq] at h
    rw [← h]; decide
  · simp at h

/-- A property of the original battle that every round hands on to its
survivor holds of every battle written to the queue. -/
theorem play_loop_frontier (hard : Bool) (P : Battle → Prop)
    (hP : ∀ s k v, P s → play_round hard s k = Outcome.next v → P v) :
    ∀ (n i : Nat) (w : List Battle) (r : Nat) (run : Run), (∀ s, s ∈ w → P s) →
    play_loop hard n i (w ++ List.replicate r zero_battle) w.length = some run →
    ∃ w' r', run.queue = w' ++ List.replicate r' zero_battle ∧ run.j = w'.length ∧
      w'.length + r' = w.length + r ∧ ∀ s, s ∈ w' → P s := by
  intro n
  induction n with
  | zero =>
    intro i w r run hw h
    simp only [play_loop, Option.some.injEq] at h
    subst h
    exact ⟨w, r, rfl, rfl, rfl, hw⟩
  | succ n ih =>
    intro i w r run hw h
    cases hb : (w ++ List.replicate r zero_battle)[i]? with
    | none => rw [play_loop_fault hard n i _ _ hb] at h; simp at h
    | some b =>
      rw [play_loop_succ hard n i _ _ b hb] at h
      cases hu : upkeep hard b with
      | none =>
        simp only [hu] at h
        exact ih (i + 1) w r run hw h
      | some t =>
        simp only [hu] at h
        by_cases hd : is_dead t.boss.hit_points = true
        · simp only [hd, if_true, Option.some.injEq] at h
          subst h
          exact ⟨w, r, rfl, rfl, rfl, hw⟩
        · simp only [hd, Bool.false_eq_true, if_false] at h
          have hPb : P b := by
            rcases Nat.lt_or_ge i w.length with hlt | hge
            · rw [getElem?_padded_left w r i hlt] at hb
              exact hw b (List.getElem?_mem hb)
            · have hin : i < (w ++ List.replicate r zero_battle).length := by
                by_contra hne
                rw [List.getElem?_eq_none (by omega)] at hb
                simp at hb
              rw [getElem?_padded_right w r i hge hin] at hb
              simp only [Option.some.injEq] at hb
              subst hb
              exact absurd (upkeep_zero_battle_dead hard t hu) hd
          have hl := scan_length_le (play_impl t) r
          have hstored : ∀ s, s ∈ w ++ (scan (play_impl t) r).2 → P s := by
            intro s hs
            rcases List.mem_append.mp hs with hs | hs
            · exact hw s hs
            · obtain ⟨x, hx, hv⟩ := scan_stored (play_impl t) r s hs
              obtain ⟨k, hk⟩ := getD_of_mem (play_impl t) x hx
              apply hP b k s hPb
              rw [play_round_of_upkeep hard b t k hu hd, hk, hv]
          rw [play_inner_scan] at h
          cases hs : (scan (play_impl t) r).1 with
          | some a =>
            simp only [hs, Option.some.injEq] at h
            subst h
            refine ⟨_, _, rfl, rfl, ?_, hstored⟩
            simp only [List.length_append]
            omega
          | none =>
            simp only [hs] at h
            obtain ⟨w', r', h1, h2, h3, h4⟩ := ih (i + 1) _ _ run hstored h
            refine ⟨w', r', h1, h2, ?_, h4⟩
            simp only [List.length_append] at h3 ⊢
            omega

/-- Every battle `play` has written when it returns satisfies a property that
holds of the original battle and that every round hands on to its survivor. -/
theorem play_run_frontier (hard : Bool) (P : Battle → Prop)
    (hP : ∀ s k v, P s → play_round hard s k = Outcome.next v → P v)
    (depth : Nat) (original : Battle) (h0 : P original) (run : Run)
    (h : play_run hard depth original = some run) :
    run.queue.length = depth ∧ run.j ≤ depth ∧
    ∀ p, p < run.j → ∃ s, run.queue[p]? = some s ∧ P s := by
  cases depth with
  | zero => simp [play_run] at h
  | succ d =>
    unfold play_run at h
    simp only [List.length_replicate, Nat.zero_lt_succ, if_true] at h
    have hq : (List.replicate (d + 1) zero_battle).set 0 original
        = [original] ++ List.replicate d zero_battle := by
      simp [List.replicate_succ]
    rw [hq] at h
    obtain ⟨w', r', h1, h2, h3, h4⟩ := play_loop_frontier hard P hP (d + 1) 0 [original] d run
      (by intro s hs; rw [List.mem_singleton] at hs; rw [hs]; exact h0) h
    simp only [List.length_singleton] at h3
    refine ⟨by rw [h1]; simp; omega, by omega, ?_⟩
    intro p hp
    rw [h2] at hp
    refine ⟨w'.get ⟨p, hp⟩, ?_, h4 _ (List.get_mem _ _ _)⟩
    rw [h1, List.getElem?_append_left hp]
    simp
/-! ### Invariants of the written queue -/

/-- A property of the list of written battles that holds at the start and
that every expansion of a written battle hands on holds when `play`
returns. -/
theorem play_loop_invariant (hard : Bool) (P : List Battle → Prop)
    (hP : ∀ (w : List Battle) (i : Nat) (b t : Battle) (r : Nat), P w → w[i]? = some b →
      upkeep hard b = some t → ¬ is_dead t.boss.hit_points = true →
      P (w ++ (scan (play_impl t) r).2)) :
    ∀ (n i : Nat) (w : List Battle) (r : Nat) (run : Run), P w →
    play_loop hard n i (w ++ List.replicate r zero_battle) w.length = some run →
    ∃ w' r', run.queue = w' ++ List.replicate r' zero_battle ∧ run.j = w'.length ∧
      w'.length + r' = w.length + r ∧ P w' := by
  intro n
  induction n with
  | zero =>
    intro i w r run hw h
    simp only [play_loop, Option.some.injEq] at h
    subst h
    exact ⟨w, r, rfl, rfl, rfl, hw⟩
  | succ n ih =>
    intro i w r run hw h
    cases hb : (w ++ List.replicate r zero_battle)[i]? with
    | none => rw [play_loop_fault hard n i _ _ hb] at h; simp at h
    | some b =>
      rw [play_loop_succ hard n i _ _ b hb] at h
      cases hu : upkeep hard b with
      | none =>
        simp only [hu] at h
        exact ih (i + 1) w r run hw h
      | some t =>
        simp only [hu] at h
        by_cases hd : is_dead t.boss.hit_points = true
        · simp only [hd, if_true, Option.some.injEq] at h
          subst h
          exact ⟨w, r, rfl, rfl, rfl, hw⟩
        · simp only [hd, Bool.false_eq_true, if_false] at h
          have hwb : w[i]? = some b := by
            rcases Nat.lt_or_ge i w.length with hlt | hge
            · rw [getElem?_padded_left w r i hlt] at hb
              exact hb
            · have hin : i < (w ++ List.replicate r zero_battle).length := by
                by_contra hne
                rw [List.getElem?_eq_none (by omega)] at hb
                simp at hb
              rw [getElem?_padded_right w r i hge hin] at hb
              simp only [Option.some.injEq] at hb
              subst hb
              exact absurd (upkeep_zero_battle_dead hard t hu) hd
          have hl := scan_length_le (play_impl t) r
          have hstored := hP w i b t r hw hwb hu hd
          rw [play_inner_scan] at h
          cases hs : (scan (play_impl t) r).1 with
          | some a =>
            simp only [hs, Option.some.injEq] at h
            subst h
            refine ⟨_, _, rfl, rfl, ?_, hstored⟩
            simp only [List.length_append]
            omega
          | none =>
            simp only [hs] at h
            obtain ⟨w', r', h1, h2, h3, h4⟩ := ih (i + 1) _ _ run hstored h
            refine ⟨w', r', h1, h2, ?_, h4⟩
            simp only [List.length_append] at h3 ⊢
            omega

/-- The list of battles `play` has written when it returns satisfies a
property that holds of the original battle alone and that every expansion of a
written battle hands on. -/
theorem play_run_invariant (hard : Bool) (P : List Battle → Prop)
    (hP : ∀ (w : List Battle) (i : Nat) (b t : Battle) (r : Nat), P w → w[i]? = some b →
      upkeep hard b = some t → ¬ is_dead t.boss.hit_points = true →
      P (w ++ (scan (play_impl t) r).2))
    (depth : Nat) (original : Battle) (h0 : P [original]) (run : Run)
    (h : play_run hard depth original = some run) :
    ∃ w, run.queue = w ++ List.replicate (depth - w.length) zero_battle ∧
      run.j = w.length ∧ w.length ≤ depth ∧ P w := by
  cases depth with
  | zero => simp [play_run] at h
  | succ d =>
    unfold play_run at h
    simp only [List.length_replicate, Nat.zero_lt_succ, if_true] at h
    have hq : (List.replicate (d + 1) zero_battle).set 0 original
        = [original] ++ List.replicate d zero_battle := by
      simp [List.replicate_succ]
    rw [hq] at h
    obtain ⟨w', r', h1, h2, h3, h4⟩ :=
      play_loop_invariant hard P hP (d + 1) 0 [original] d run h0 h
    simp only [List.length_singleton] at h3
    refine ⟨w', ?_, h2, by omega, h4⟩
    rw [h1]
    congr 2
    omega

/-- The index at which the outer loop stops lies between its start and the
size of the queue. -/
theorem play_loop_index (hard : Bool) : ∀ (n i : Nat) (queue : List Battle) (j : Nat) (run : Run),
    play_loop hard n i queue j = some run → i ≤ run.i ∧ run.i ≤ n + i := by
  intro n
  induction n with
  | zero =>
    intro i queue j run h
    simp only [play_loop, Option.some.injEq] at h
    subst h
    simp
  | succ n ih =>
    intro i queue j run h
    cases hb : queue[i]? with
    | none => rw [play_loop_fault hard n i _ _ hb] at h; simp at h
    | some b =>
      rw [play_loop_succ hard n i _ _ b hb] at h
      cases hu : upkeep hard b with
      | none =>
        simp only [hu] at h
        have := ih (i + 1) queue j run h
        omega
      | some t =>
        simp only [hu] at h
        by_cases hd : is_dead t.boss.hit_points = true
        · simp only [hd, if_true, Option.some.injEq] at h
          subst h
          simp
        · simp only [hd, Bool.false_eq_true, if_false] at h
          cases hf : play_inner (play_impl t) queue j with
          | returned a q' j' =>
            simp only [hf, Option.some.injEq] at h
            subst h
            simp
          | fallthrough q' j' =>
            simp only [hf] at h
            have := ih (i + 1) q' j' run h
            omega

theorem play_round_win_cost (hard : Bool) (b : Battle) (k : Nat) (c : Int)
    (h : play_round hard b k = Outcome.win c) :
    c = b.cost + catalog_cost k ∧ catalog_cost k ∈ [53, 73, 113, 173, 229] := by
  unfold play_round at h
  cases hu : upkeep hard b with
  | none => simp [hu] at h
  | some t =>
    simp only [hu] at h
    split_ifs at h
    cases hc : (play_impl t).getD k none with
    | none => rw [hc] at h; simp [settle] at h
    | some nb =>
      rw [hc] at h
      have h1 := play_impl_cost t nb k hc
      rw [settle_win_cost nb c h, h1.1, upkeep_cost hard b t hu]
      exact ⟨rfl, h1.2⟩

theorem catalog_cost_lt (k : Nat) (h : catalog_cost k ∈ [53, 73, 113, 173, 229]) : k < 5 := by
  rcases k with _ | _ | _ | _ | _ | k
  all_goals first
    | omega
    | (simp [catalog_cost, next_actions] at h)
/-! ### Winning sequences -/

theorem reach_entries (hard : Bool) : ∀ (ks : List Nat) (b s : Battle),
    reach hard b ks = some s → ∀ k, k ∈ ks → k < 5 := by
  intro ks
  induction ks with
  | nil => intro b s _ k hk; simp at hk
  | cons k0 ks ih =>
    intro b s h k hk
    simp only [reach] at h
    cases hp : play_round hard b k0 with
    | next v =>
      simp only [hp] at h
      rcases List.mem_cons.mp hk with hk | hk
      · rw [hk]
        exact catalog_cost_lt k0 (play_round_next_cost hard b v k0 hp).2
      · exact ih v s h k hk
    | win c => simp [hp] at h
    | stop => simp [hp] at h

theorem wins_with_cost (hard : Bool) (ks : List Nat) (b : Battle) (c : Int)
    (h : wins_with hard b ks = some c) :
    c = b.cost + (ks.map catalog_cost).sum ∧ ∀ k, k ∈ ks → k < 5 := by
  obtain ⟨ks0, k, s, hks, hr, hw⟩ := wins_with_inv hard ks b c h
  subst hks
  have h1 := play_round_win_cost hard s k c hw
  constructor
  · rw [h1.1, reach_cost hard ks0 b s hr]
    simp only [List.map_append, List.sum_append, List.map_cons, List.map_nil, List.sum_cons,
      List.sum_nil]
    ring
  · intro k' hk'
    rcases List.mem_append.mp hk' with hk' | hk'
    · exact reach_entries hard ks0 b s hr k' hk'
    · rw [List.mem_singleton] at hk'
      rw [hk']
      exact catalog_cost_lt k h1.2

/-! ### The shield of a stored battle -/

theorem play_impl_shield_timer (b nb : Battle) (k : Nat)
    (h : (play_impl b).getD k none = some nb) :
    nb.env.shield_timer = b.env.shield_timer ∨ nb.env.shield_timer = 6 := by
  rcases k with _ | _ | _ | _ | _ | k
  case succ.succ.succ.succ.succ =>
    simp [play_impl, next_actions] at h
  all_goals
    simp only [play_impl, next_actions, List.map, List.getD_cons_succ, List.getD_cons_zero,
      play_impl_one_eq] at h
    split_ifs at h
    simp only [Option.some.injEq] at h
    subst h
    simp [magic_missile, drain, shield, poison, recharge]

theorem upkeep_shield_timer (hard : Bool) (b t : Battle) (h : upkeep hard b = some t) :
    t.env.shield_timer
      = if b.env.shield_timer > 0 then b.env.shield_timer - 1 else b.env.shield_timer := by
  unfold upkeep at h
  cases hard
  · simp only [Bool.false_eq_true, if_false, Bool.false_and, Option.some.injEq] at h
    rw [← h, apply_effects_eq_spec]
    rfl
  · simp only [if_true, Bool.true_and] at h
    split_ifs at h
    simp only [Option.some.injEq] at h
    rw [← h, apply_effects_eq_spec]
    rfl

theorem settle_next_shield (nb v : Battle) (h : settle (some nb) = Outcome.next v) :
    v.env.shield_timer
      = (if nb.env.shield_timer > 0 then nb.env.shield_timer - 1 else nb.env.shield_timer) ∧
    v.player.armour = (if nb.env.shield_timer > 0 then 7 else 0) := by
  simp only [settle] at h
  split_ifs at h
  simp only [Outcome.next.injEq] at h
  rw [← h, apply_effects_eq_spec]
  exact ⟨rfl, rfl⟩

theorem shield_ok_step (hard : Bool) (s v : Battle) (k : Nat) (hs : ShieldOk s)
    (h : play_round hard s k = Outcome.next v) : ShieldOk v := by
  unfold play_round at h
  cases hu : upkeep hard s with
  | none => simp [hu] at h
  | some t =>
    simp only [hu] at h
    split_ifs at h
    cases hc : (play_impl t).getD k none with
    | none => rw [hc] at h; simp [settle] at h
    | some nb =>
      rw [hc] at h
      have h1 := upkeep_shield_timer hard s t hu
      have h2 := play_impl_shield_timer t nb k hc
      obtain ⟨h3, h4⟩ := settle_next_shield nb v h
      unfold ShieldOk at hs ⊢
      rw [h3, h4]
      rcases hs with ⟨hs0, _⟩ | ⟨hs1 | hs3 | hs5, _⟩
      · rw [hs0] at h1
        simp only [gt_iff_lt, lt_self_iff_false, if_false] at h1
        rcases h2 with h2 | h2
        · rw [h2, h1]; simp
        · rw [h2]; simp
      · rw [hs1] at h1
        norm_num at h1
        rcases h2 with h2 | h2
        · rw [h2, h1]; simp
        · rw [h2]; simp
      · rw [hs3] at h1
        norm_num at h1
        rcases h2 with h2 | h2
        · rw [h2, h1]; simp
        · rw [h2]; simp
      · rw [hs5] at h1
        norm_num at h1
        rcases h2 with h2 | h2
        · rw [h2, h1]; simp
        · rw [h2]; simp

/-! ### Parents in the queue -/

theorem parented_expand (hard : Bool) (w : List Battle) (i : Nat) (b t : Battle) (r : Nat)
    (hw : Parented hard w) (hb : w[i]? = some b) (hu : upkeep hard b = some t)
    (hd : ¬ is_dead t.boss.hit_points = true) :
    Parented hard (w ++ (scan (play_impl t) r).2) := by
  intro p hp0 hp
  have hi : i < w.length := by
    by_contra hne
    rw [List.getElem?_eq_none (by omega)] at hb
    simp at hb
  rcases Nat.lt_or_ge p w.length with hlt | hge
  · obtain ⟨q, k, s, v, hq, h1, h2, h3⟩ := hw p hp0 hlt
    refine ⟨q, k, s, v, hq, ?_, ?_, h3⟩
    · rw [List.getElem?_append_left (by omega)]; exact h1
    · rw [List.getElem?_append_left hlt]; exact h2
  · have hv : (w ++ (scan (play_impl t) r).2)[p]?
        = some ((w ++ (scan (play_impl t) r).2).get ⟨p, hp⟩) := by simp
    have hmem : (w ++ (scan (play_impl t) r).2).get ⟨p, hp⟩ ∈ (scan (play_impl t) r).2 := by
      have : (w ++ (scan (play_impl t) r).2)[p]? = (scan (play_impl t) r).2[p - w.length]? :=
        List.getElem?_append_right hge
      rw [hv] at this
      exact List.getElem?_mem this.symm
    obtain ⟨x, hx, hxv⟩ := scan_stored (play_impl t) r _ hmem
    obtain ⟨k, hk⟩ := getD_of_mem (play_impl t) x hx
    refine ⟨i, k, b, _, by omega, ?_, hv, ?_⟩
    · rw [List.getElem?_append_left hi]; exact hb
    · rw [play_round_of_upkeep hard b t k hu hd, hk, hxv]

/-! ### Expanding a battle with room to spare -/

theorem scan_all : ∀ (cands : List (Option Battle)) (room : Nat),
    (cands.filterMap next_of).length ≤ room →
    (∀ x, x ∈ cands → ∀ c, settle x ≠ Outcome.win c) →
    scan cands room = (none, cands.filterMap next_of) := by
  intro cands
  induction cands with
  | nil => intro room _ _; simp [scan]
  | cons cand rest ih =>
    intro room hroom hq
    have hrest : ∀ x, x ∈ rest → ∀ c, settle x ≠ Outcome.win c :=
      fun x hx => hq x (List.mem_cons_of_mem _ hx)
    unfold scan
    cases hs : settle cand with
    | stop =>
      have hn : next_of cand = none := by simp [next_of, hs]
      simp only [List.filterMap_cons, hn] at hroom ⊢
      exact ih room hroom hrest
    | win c => exact absurd hs (hq cand (List.mem_cons_self _ _) c)
    | next v =>
      have hn : next_of cand = some v := by simp [next_of, hs]
      simp only [List.filterMap_cons, hn, List.length_cons] at hroom ⊢
      cases room with
      | zero => omega
      | succ room =>
        simp only
        rw [ih room (by omega) hrest]

theorem scan_reaches_win : ∀ (cands : List (Option Battle)) (room : Nat),
    (cands.filterMap next_of).length ≤ room →
    (∃ x, x ∈ cands ∧ ∃ c, settle x = Outcome.win c) →
    ∃ c, (scan cands room).1 = some (true, c) := by
  intro cands
  induction cands with
  | nil => intro room _ h; obtain ⟨x, hx, _⟩ := h; simp at hx
  | cons cand rest ih =>
    intro room hroom hw
    unfold scan
    cases hs : settle cand with
    | stop =>
      have hn : next_of cand = none := by simp [next_of, hs]
      simp only [List.filterMap_cons, hn] at hroom
      obtain ⟨x, hx, c, hc⟩ := hw
      rcases List.mem_cons.mp hx with hx | hx
      · rw [hx, hs] at hc; simp at hc
      · exact ih room hroom ⟨x, hx, c, hc⟩
    | win c => exact ⟨c, rfl⟩
    | next v =>
      have hn : next_of cand = some v := by simp [next_of, hs]
      simp only [List.filterMap_cons, hn, List.length_cons] at hroom
      obtain ⟨x, hx, c, hc⟩ := hw
      rcases List.mem_cons.mp hx with hx | hx
      · rw [hx, hs] at hc; simp at hc
      · cases room with
        | zero => omega
        | succ room =>
          simp only
          exact ih room (by omega) ⟨x, hx, c, hc⟩

theorem mem_children (hard : Bool) (s v : Battle) :
    v ∈ children hard s ↔ ∃ k, play_round hard s k = Outcome.next v := by
  unfold children
  cases hu : upkeep hard s with
  | none =>
    simp only [List.not_mem_nil, false_iff, not_exists]
    intro k
    rw [play_round_of_upkeep_none hard s k hu]
    simp
  | some t =>
    simp only
    by_cases hd : is_dead t.boss.hit_points = true
    · simp only [hd, if_true, List.not_mem_nil, false_iff, not_exists]
      intro k
      simp [play_round, hu, hd]
    · simp only [hd, Bool.false_eq_true, if_false, List.mem_filterMap]
      constructor
      · rintro ⟨x, hx, hv⟩
        obtain ⟨k, hk⟩ := getD_of_mem (play_impl t) x hx
        refine ⟨k, ?_⟩
        rw [play_round_of_upkeep hard s t k hu hd, hk]
        unfold next_of at hv
        cases hs : settle x with
        | next u => simp only [hs, Option.some.injEq] at hv; rw [hv]
        | win c => simp [hs] at hv
        | stop => simp [hs] at hv
      · rintro ⟨k, hk⟩
        rw [play_round_of_upkeep hard s t k hu hd] at hk
        exact ⟨_, mem_of_settle_getD (play_impl t) k (by rw [hk]; simp), by unfold next_of; rw [hk]⟩

theorem children_length_le (hard : Bool) (s : Battle) : (children hard s).length ≤ 5 := by
  unfold children
  cases upkeep hard s with
  | none => simp
  | some t =>
    simp only
    split_ifs
    · simp
    · exact le_trans (List.length_filterMap_le _ _) (by simp [play_impl, next_actions])

/-! ### One step of the search on the pending battles -/

theorem bfs_skip (hard : Bool) (n room : Nat) (s : Battle) (pending : List Battle)
    (hu : upkeep hard s = none) :
    bfs hard (n + 1) room (s :: pending) = bfs hard n room pending := by
  rw [bfs]; simp only [hu]

theorem bfs_expand (hard : Bool) (n room : Nat) (s : Battle) (pending : List Battle)
    (hh : ¬ Hazard hard s) (hq : Quiet hard s) (hroom : (children hard s).length ≤ room) :
    bfs hard (n + 1) room (s :: pending)
      = bfs hard n (room - (children hard s).length) (pending ++ children hard s) := by
  cases hu : upkeep hard s with
  | none =>
    rw [bfs_skip hard n room s pending hu]
    simp [children, hu]
  | some t =>
    have hd : ¬ is_dead t.boss.hit_points = true := fun hd => hh ⟨t, hu, hd⟩
    have hc : children hard s = (play_impl t).filterMap next_of := by
      simp [children, hu, hd]
    rw [hc] at hroom ⊢
    have hnw : ∀ x, x ∈ play_impl t → ∀ c, settle x ≠ Outcome.win c := by
      intro x hx c hw
      obtain ⟨k, hk⟩ := getD_of_mem (play_impl t) x hx
      exact hq k c (by rw [play_round_of_upkeep hard s t k hu hd, hk, hw])
    rw [bfs]
    simp only [hu, hd, Bool.false_eq_true, if_false]
    rw [scan_all (play_impl t) room hroom hnw]

theorem bfs_win (hard : Bool) (n room : Nat) (s : Battle) (pending : List Battle)
    (hh : ¬ Hazard hard s) (hq : ¬ Quiet hard s) (hroom : (children hard s).length ≤ room) :
    ∃ c, bfs hard (n + 1) room (s :: pending) = (true, c) ∧
      ∃ k, play_round hard s k = Outcome.win c := by
  unfold Quiet at hq
  push_neg at hq
  obtain ⟨k, c, hk⟩ := hq
  cases hu : upkeep hard s with
  | none => rw [play_round_of_upkeep_none hard s k hu] at hk; simp at hk
  | some t =>
    have hd : ¬ is_dead t.boss.hit_points = true := fun hd => hh ⟨t, hu, hd⟩
    have hc : children hard s = (play_impl t).filterMap next_of := by
      simp [children, hu, hd]
    rw [hc] at hroom
    rw [play_round_of_upkeep hard s t k hu hd] at hk
    have hmem := mem_of_settle_getD (play_impl t) k (by rw [hk]; simp)
    obtain ⟨c', hc'⟩ := scan_reaches_win (play_impl t) room hroom ⟨_, hmem, c, hk⟩
    obtain ⟨x, hx, hxw⟩ := scan_win (play_impl t) room c' hc'
    obtain ⟨k', hk'⟩ := getD_of_mem (play_impl t) x hx
    refine ⟨c', ?_, k', by rw [play_round_of_upkeep hard s t k' hu hd, hk', hxw]⟩
    rw [bfs]
    simp only [hu, hd, Bool.false_eq_true, if_false]
    have : scan (play_impl t) room = (some (true, c'), (scan (play_impl t) room).2) := by
      rw [← hc']
    rw [this]

/-! ### Sweeping a layer -/

theorem layer_of_append (hard : Bool) : ∀ (k : Nat) (l1 l2 : List Battle),
    layer_of hard k (l1 ++ l2) = layer_of hard k l1 ++ layer_of hard k l2 := by
  intro k
  induction k with
  | zero => intro l1 l2; rfl
  | succ k ih =>
    intro l1 l2
    simp only [layer_of, List.flatMap_append, ih]

theorem layer_of_succ (hard : Bool) : ∀ (k : Nat) (l : List Battle),
    layer_of hard (k + 1) l = (layer_of hard k l).flatMap (children hard) := by
  intro k
  induction k with
  | zero => intro l; rfl
  | succ k ih =>
    intro l
    rw [layer_of, ih, layer_of]

theorem layer_of_nil (hard : Bool) : ∀ (k : Nat), layer_of hard k [] = [] := by
  intro k
  induction k with
  | zero => rfl
  | succ k ih => simp [layer_of, ih]

theorem mem_layer_of (hard : Bool) (b0 : Battle) : ∀ (k : Nat) (s : Battle),
    s ∈ layer_of hard k [b0] ↔ ∃ ks, ks.length = k ∧ reach hard b0 ks = some s := by
  intro k
  induction k with
  | zero =>
    intro s
    simp only [layer_of, List.mem_singleton]
    constructor
    · intro h; exact ⟨[], rfl, by rw [h]; rfl⟩
    · rintro ⟨ks, hlen, hr⟩
      have : ks = [] := List.length_eq_zero.mp hlen
      subst this
      simp only [reach, Option.some.injEq] at hr
      exact hr.symm
  | succ k ih =>
    intro s
    rw [layer_of_succ, List.mem_flatMap]
    constructor
    · rintro ⟨p, hp, hs⟩
      obtain ⟨ks, hlen, hr⟩ := (ih p).mp hp
      obtain ⟨a, ha⟩ := (mem_children hard p s).mp hs
      exact ⟨ks ++ [a], by simp [hlen], reach_snoc hard ks b0 p s a hr ha⟩
    · rintro ⟨ks, hlen, hr⟩
      rcases List.eq_nil_or_concat ks with hnil | ⟨ks0, a, hks⟩
      · subst hnil; simp at hlen
      · subst hks
        rw [List.concat_eq_append] at hr hlen
        obtain ⟨p, hp, ha⟩ := reach_snoc_inv hard ks0 b0 s a hr
        have hlen0 : ks0.length = k := by simpa using hlen
        exact ⟨p, (ih p).mpr ⟨ks0, hlen0, hp⟩, (mem_children hard p s).mpr ⟨a, ha⟩⟩

/-- A run of battles that neither end the search nor win is swept in one go:
their children join the pending battles behind what was already there. -/
theorem bfs_sweep (hard : Bool) : ∀ (rest tail : List Battle) (n room : Nat),
    (∀ s, s ∈ rest → ¬ Hazard hard s ∧ Quiet hard s) →
    rest.length ≤ n → (rest.flatMap (children hard)).length ≤ room →
    bfs hard n room (rest ++ tail)
      = bfs hard (n - rest.length) (room - (rest.flatMap (children hard)).length)
          (tail ++ rest.flatMap (children hard)) := by
  intro rest
  induction rest with
  | nil => intro tail n room _ _ _; simp
  | cons s rest ih =>
    intro tail n room hs hn hroom
    simp only [List.length_cons, List.flatMap_cons, List.length_append] at hn hroom
    obtain ⟨n, rfl⟩ : ∃ n', n = n' + 1 := ⟨n - 1, by omega⟩
    obtain ⟨hh, hq⟩ := hs s (List.mem_cons_self _ _)
    rw [List.cons_append, bfs_expand hard n room s (rest ++ tail) hh hq (by omega),
      List.append_assoc, ih (tail ++ children hard s) n (room - (children hard s).length)
        (fun x hx => hs x (List.mem_cons_of_mem _ hx)) (by omega) (by omega)]
    simp only [List.length_cons, List.flatMap_cons, List.length_append, List.append_assoc]
    congr 1
    · omega
    · omega

/-- A run of battles none of which ends the search and one of which wins: the
search returns a win of one of them. -/
theorem bfs_sweep_win (hard : Bool) : ∀ (rest tail : List Battle) (n room : Nat),
    (∀ s, s ∈ rest → ¬ Hazard hard s) → (∃ s, s ∈ rest ∧ ¬ Quiet hard s) →
    rest.length ≤ n → (rest.flatMap (children hard)).length ≤ room →
    ∃ c, bfs hard n room (rest ++ tail) = (true, c) ∧
      ∃ s k, s ∈ rest ∧ play_round hard s k = Outcome.win c := by
  intro rest
  induction rest with
  | nil => intro tail n room _ h; obtain ⟨s, hs, _⟩ := h; simp at hs
  | cons s rest ih =>
    intro tail n room hs hw hn hroom
    simp only [List.length_cons, List.flatMap_cons, List.length_append] at hn hroom
    obtain ⟨n, rfl⟩ : ∃ n', n = n' + 1 := ⟨n - 1, by omega⟩
    have hh := hs s (List.mem_cons_self _ _)
    by_cases hq : Quiet hard s
    · rw [List.cons_append, bfs_expand hard n room s (rest ++ tail) hh hq (by omega),
        List.append_assoc]
      have hw' : ∃ x, x ∈ rest ∧ ¬ Quiet hard x := by
        obtain ⟨x, hx, hxq⟩ := hw
        rcases List.mem_cons.mp hx with hx | hx
        · rw [hx] at hxq; exact absurd hq hxq
        · exact ⟨x, hx, hxq⟩
      obtain ⟨c, hc, x, k, hx, hk⟩ := ih (tail ++ children hard s) n
        (room - (children hard s).length)
        (fun x hx => hs x (List.mem_cons_of_mem _ hx)) hw' (by omega) (by omega)
      exact ⟨c, hc, x, k, List.mem_cons_of_mem _ hx, hk⟩
    · obtain ⟨c, hc, k, hk⟩ := bfs_win hard n room s (rest ++ tail) hh hq (by omega)
      exact ⟨c, hc, s, k, List.mem_cons_self _ _, hk⟩

/-- The search through whole layers: after the layers `0 .. k - 1`, none of
which ends the search or wins, the pending battles are the layer `k`. -/
theorem bfs_layers (hard : Bool) (b0 : Battle) (n room : Nat) : ∀ (k : Nat),
    (∀ k', k' < k → ∀ s, s ∈ layer_of hard k' [b0] → ¬ Hazard hard s ∧ Quiet hard s) →
    dequeued_upto hard b0 k ≤ n → stored_upto hard b0 k ≤ room →
    bfs hard n room [b0]
      = bfs hard (n - dequeued_upto hard b0 k) (room - stored_upto hard b0 k)
          (layer_of hard k [b0]) := by
  intro k
  induction k with
  | zero => intro _ _ _; simp [dequeued_upto, stored_upto, layer_of]
  | succ k ih =>
    intro hs hn hroom
    simp only [dequeued_upto, stored_upto] at hn hroom ⊢
    rw [ih (fun k' hk' => hs k' (by omega)) (by omega) (by omega)]
    have h := bfs_sweep hard (layer_of hard k [b0]) [] (n - dequeued_upto hard b0 k)
      (room - stored_upto hard b0 k) (hs k (by omega)) (by omega)
      (by rw [← layer_of_succ]; omega)
    rw [List.append_nil, List.nil_append, ← layer_of_succ] at h
    rw [h]
    congr 1
    · omega
    · omega

/-- When no battle up to `m` rounds away ends the search, none fewer than `m`
rounds away wins, one `m` rounds away wins, and the queue can take the layers
up to `m + 1`, the search returns a win of a battle `m` rounds away. -/
theorem bfs_finds_win (hard : Bool) (b0 : Battle) (n room m : Nat)
    (hsafe : ∀ k, k ≤ m → ∀ s, s ∈ layer_of hard k [b0] → ¬ Hazard hard s)
    (hquiet : ∀ k, k < m → ∀ s, s ∈ layer_of hard k [b0] → Quiet hard s)
    (hwin : ∃ s, s ∈ layer_of hard m [b0] ∧ ¬ Quiet hard s)
    (hn : dequeued_upto hard b0 (m + 1) ≤ n) (hroom : stored_upto hard b0 (m + 1) ≤ room) :
    ∃ c, bfs hard n room [b0] = (true, c) ∧
      ∃ s k, s ∈ layer_of hard m [b0] ∧ play_round hard s k = Outcome.win c := by
  simp only [dequeued_upto, stored_upto] at hn hroom
  rw [bfs_layers hard b0 n room m
    (fun k hk s hs => ⟨hsafe k (by omega) s hs, hquiet k hk s hs⟩) (by omega) (by omega)]
  have h := bfs_sweep_win hard (layer_of hard m [b0]) [] (n - dequeued_upto hard b0 m)
    (room - stored_upto hard b0 m) (hsafe m (le_refl _)) hwin (by omega)
    (by rw [← layer_of_succ]; omega)
  rw [List.append_nil] at h
  exact h

/-! ### How fast the boss can fall -/

theorem apply_effects_boss (b : Battle) :
    b.boss.hit_points - 3 ≤ (apply_effects b).boss.hit_points := by
  rw [apply_effects_eq_spec]
  simp only [apply_effects_spec]
  split_ifs <;> omega

theorem upkeep_boss (hard : Bool) (b t : Battle) (h : upkeep hard b = some t) :
    b.boss.hit_points - 3 ≤ t.boss.hit_points := by
  unfold upkeep at h
  cases hard
  · simp only [Bool.false_eq_true, if_false, Bool.false_and, Option.some.injEq] at h
    rw [← h]
    exact apply_effects_boss b
  · simp only [if_true, Bool.true_and] at h
    split_ifs at h
    simp only [Option.some.injEq] at h
    rw [← h]
    exact apply_effects_boss _

theorem play_impl_boss (b nb : Battle) (k : Nat) (h : (play_impl b).getD k none = some nb) :
    b.boss.hit_points - 4 ≤ nb.boss.hit_points := by
  rcases k with _ | _ | _ | _ | _ | k
  case succ.succ.succ.succ.succ =>
    simp [play_impl, next_actions] at h
  all_goals
    simp only [play_impl, next_actions, List.map, List.getD_cons_succ, List.getD_cons_zero,
      play_impl_one_eq] at h
    split_ifs at h
    simp only [Option.some.injEq] at h
    subst h
    simp only [magic_missile, drain, shield, poison, recharge]
    omega

theorem hazard_boss (hard : Bool) (s : Battle) (h : Hazard hard s) : s.boss.hit_points ≤ 3 := by
  obtain ⟨t, hu, hd⟩ := h
  have h1 := upkeep_boss hard s t hu
  simp only [is_dead, decide_eq_true_eq] at hd
  omega

theorem win_boss (hard : Bool) (s : Battle) (a : Nat) (c : Int)
    (h : play_round hard s a = Outcome.win c) : s.boss.hit_points ≤ 10 := by
  unfold play_round at h
  cases hu : upkeep hard s with
  | none => simp [hu] at h
  | some t =>
    simp only [hu] at h
    split_ifs at h
    cases hc : (play_impl t).getD a none with
    | none => rw [hc] at h; simp [settle] at h
    | some nb =>
      rw [hc] at h
      have h1 := upkeep_boss hard s t hu
      have h2 := play_impl_boss t nb a hc
      have h3 := apply_effects_boss nb
      simp only [settle] at h
      split_ifs at h with hd
      simp only [is_dead, decide_eq_true_eq] at hd
      omega

theorem next_boss (hard : Bool) (s v : Battle) (a : Nat)
    (h : play_round hard s a = Outcome.next v) :
    s.boss.hit_points - 10 ≤ v.boss.hit_points := by
  unfold play_round at h
  cases hu : upkeep hard s with
  | none => simp [hu] at h
  | some t =>
    simp only [hu] at h
    split_ifs at h
    cases hc : (play_impl t).getD a none with
    | none => rw [hc] at h; simp [settle] at h
    | some nb =>
      rw [hc] at h
      have h1 := upkeep_boss hard s t hu
      have h2 := play_impl_boss t nb a hc
      have h3 := apply_effects_boss nb
      simp only [settle] at h
      split_ifs at h
      simp only [Outcome.next.injEq] at h
      rw [← h]
      have : (strike (apply_effects nb)).boss = (apply_effects nb).boss := rfl
      rw [this]
      omega

/-! ### Looking ahead -/

theorem good_zero (hard : Bool) (allowed : Int → Bool) (s : Battle) : Good hard allowed 0 s := by
  intro ks s' h _
  omega

theorem good_succ (hard : Bool) (allowed : Int → Bool) (R : Nat) (s : Battle)
    (hh : ¬ Hazard hard s)
    (hw : ∀ a c, play_round hard s a = Outcome.win c → R = 0 ∧ allowed c = true)
    (hn : ∀ a v, play_round hard s a = Outcome.next v → Good hard allowed R v) :
    Good hard allowed (R + 1) s := by
  intro ks s' hlen hr
  cases ks with
  | nil =>
    simp only [reach, Option.some.injEq] at hr
    subst hr
    refine ⟨hh, fun a c hc => ?_⟩
    obtain ⟨h1, h2⟩ := hw a c hc
    exact ⟨by simp [h1], h2⟩
  | cons a ks =>
    simp only [reach] at hr
    cases hp : play_round hard s a with
    | next v =>
      simp only [hp] at hr
      simp only [List.length_cons] at hlen ⊢
      obtain ⟨h1, h2⟩ := hn a v hp ks s' (by omega) hr
      refine ⟨h1, fun a' c hc => ?_⟩
      obtain ⟨h3, h4⟩ := h2 a' c hc
      exact ⟨by omega, h4⟩
    | win c => simp [hp] at hr
    | stop => simp [hp] at hr

/-- A boss with more than ten hit points per round left is out of reach. -/
theorem good_far (hard : Bool) (allowed : Int → Bool) : ∀ (R : Nat) (s : Battle),
    (10 * R : Int) < s.boss.hit_points → Good hard allowed R s := by
  intro R
  induction R with
  | zero => intro s _; exact good_zero hard allowed s
  | succ R ih =>
    intro s hs
    push_cast at hs
    apply good_succ
    · intro hh
      have := hazard_boss hard s hh
      omega
    · intro a c hc
      have := win_boss hard s a c hc
      omega
    · intro a v hv
      apply ih
      have := next_boss hard s v a hv
      omega

/-- What a look-ahead of `R` rounds from the original battle says about the
layers of the search. -/
theorem good_layers (hard : Bool) (allowed : Int → Bool) (R : Nat) (b0 : Battle)
    (h : Good hard allowed R b0) :
    (∀ k, k < R → ∀ s, s ∈ layer_of hard k [b0] → ¬ Hazard hard s) ∧
    (∀ k, k + 1 < R → ∀ s, s ∈ layer_of hard k [b0] → Quiet hard s) ∧
    (∀ k, k + 1 = R → ∀ s, s ∈ layer_of hard k [b0] →
      ∀ a c, play_round hard s a = Outcome.win c → allowed c = true) := by
  refine ⟨?_, ?_, ?_⟩
  · intro k hk s hs
    obtain ⟨ks, hlen, hr⟩ := (mem_layer_of hard b0 k s).mp hs
    exact (h ks s (by omega) hr).1
  · intro k hk s hs a c hc
    obtain ⟨ks, hlen, hr⟩ := (mem_layer_of hard b0 k s).mp hs
    have := ((h ks s (by omega) hr).2 a c hc).1
    omega
  · intro k hk s hs a c hc
    obtain ⟨ks, hlen, hr⟩ := (mem_layer_of hard b0 k s).mp hs
    exact ((h ks s (by omega) hr).2 a c hc).2

/-! ### The rounds on natural numbers agree with the model -/

theorem positive_eq (t : Nat) : positive t = if 0 < t then 1 else 0 := by
  unfold positive
  simp only [Nat.sub_eq]
  split_ifs <;> omega

theorem apply_effects_mk (hp : Nat) (arm : Int) (mana : Nat) (bhp : Int) (st pt rt : Nat)
    (cost : Int) :
    apply_effects { player := { hit_points := hp, armour := arm, mana := mana },
                    boss := { hit_points := bhp, damage := 9 },
                    env := { shield_timer := st, poison_timer := pt, recharge_timer := rt },
                    cost := cost }
      = { player := { hit_points := hp, armour := (7 * positive st : Nat),
                      mana := (mana + 101 * positive rt : Nat) },
          boss := { hit_points := bhp - (3 * positive pt : Nat), damage := 9 },
          env := { shield_timer := (st - 1 : Nat), poison_timer := (pt - 1 : Nat),
                   recharge_timer := (rt - 1 : Nat) },
          cost := cost } := by
  rw [apply_effects_eq_spec]
  simp only [apply_effects_spec, positive_eq]
  rcases st with _ | st <;> rcases pt with _ | pt <;> rcases rt with _ | rt <;>
    simp

theorem upkeep_mk (hard : Bool) (hp mana bhp arm st pt rt cost : Nat) (h : hard.toNat < hp) :
    upkeep hard (mk_battle hp mana bhp arm st pt rt cost)
      = some { player := { hit_points := (hp - hard.toNat : Nat),
                           armour := (7 * positive st : Nat),
                           mana := (mana + 101 * positive rt : Nat) },
               boss := { hit_points := (bhp : Int) - (3 * positive pt : Nat), damage := 9 },
               env := { shield_timer := (st - 1 : Nat), poison_timer := (pt - 1 : Nat),
                        recharge_timer := (rt - 1 : Nat) },
               cost := cost } := by
  cases hard
  · simp only [upkeep, mk_battle, Bool.false_eq_true, if_false, Bool.false_and, Bool.toNat_false,
      Nat.sub_zero]
    rw [apply_effects_mk]
  · simp only [Bool.toNat_true] at h
    have hd : is_dead ((hp : Int) - 1) = false := by
      simp only [is_dead, decide_eq_false_iff_not]; omega
    have hc : ((hp : Int) - 1) = ((hp - 1 : Nat) : Int) := by omega
    simp only [upkeep, mk_battle, if_true, Bool.true_and, hd, Bool.false_eq_true, if_false,
      Bool.toNat_true]
    rw [hc, apply_effects_mk]

theorem upkeep_mk_dead (hp mana bhp arm st pt rt cost : Nat) (h : hp ≤ 1) :
    upkeep true (mk_battle hp mana bhp arm st pt rt cost) = none := by
  have hd : is_dead ((hp : Int) - 1) = true := by
    simp only [is_dead, decide_eq_true_eq]; omega
  simp only [upkeep, mk_battle, if_true, Bool.true_and, hd]

theorem positive_cases (t : Nat) : positive t = 0 ∨ positive t = 1 := by
  rw [positive_eq]; split_ifs <;> simp

theorem settle_mk (hp : Nat) (arm : Int) (mana : Nat) (bhp : Int) (st pt rt : Nat) (cost : Int) :
    settle (some { player := { hit_points := hp, armour := arm, mana := mana },
                   boss := { hit_points := bhp, damage := 9 },
                   env := { shield_timer := st, poison_timer := pt, recharge_timer := rt },
                   cost := cost })
      = if bhp ≤ (3 * positive pt : Nat) then Outcome.win cost
        else if hp ≤ 9 - 7 * positive st then Outcome.stop
        else Outcome.next
          { player := { hit_points := (hp - (9 - 7 * positive st) : Nat),
                        armour := (7 * positive st : Nat),
                        mana := (mana + 101 * positive rt : Nat) },
            boss := { hit_points := bhp - (3 * positive pt : Nat), damage := 9 },
            env := { shield_timer := (st - 1 : Nat), poison_timer := (pt - 1 : Nat),
                     recharge_timer := (rt - 1 : Nat) },
            cost := cost } := by
  simp only [settle, apply_effects_mk, strike, is_dead]
  by_cases h1 : bhp ≤ (3 * positive pt : Nat)
  · have h1' : bhp - ((3 * positive pt : Nat) : Int) ≤ 0 := by omega
    rw [if_pos h1, if_pos (by rw [decide_eq_true_eq]; exact h1')]
  · have h1' : ¬ bhp - ((3 * positive pt : Nat) : Int) ≤ 0 := by omega
    rw [if_neg h1, if_neg (by rw [decide_eq_true_eq]; exact h1')]
    have hmax : max ((9 : Int) - ((7 * positive st : Nat) : Int)) 1
        = ((9 - 7 * positive st : Nat) : Int) := by
      rcases positive_cases st with hp0 | hp1
      · rw [hp0]; simp
      · rw [hp1]; simp
    rw [hmax]
    by_cases h2 : hp ≤ 9 - 7 * positive st
    · have h2' : (hp : Int) - ((9 - 7 * positive st : Nat) : Int) ≤ 0 := by omega
      rw [if_pos h2, if_pos (by rw [decide_eq_true_eq]; exact h2')]
    · have h2' : ¬ (hp : Int) - ((9 - 7 * positive st : Nat) : Int) ≤ 0 := by omega
      rw [if_neg h2, if_neg (by rw [decide_eq_true_eq]; exact h2')]
      have h3 : (hp : Int) - ((9 - 7 * positive st : Nat) : Int)
          = ((hp - (9 - 7 * positive st) : Nat) : Int) := by omega
      rw [h3]

theorem fast_cast_stop (c dmg heal hp mana bhp st pt rt cost : Nat) (h : ¬ c ≤ mana) :
    fast_cast c dmg heal hp mana bhp st pt rt cost Outcome.stop (fun c => Outcome.win c)
      (fun hp mana bhp arm st pt rt cost =>
        Outcome.next (mk_battle hp mana bhp arm st pt rt cost)) = Outcome.stop := by
  have hb : Nat.ble c mana = false := by
    rw [← Bool.not_eq_true, Nat.ble_eq]; exact h
  simp only [fast_cast, hb]

theorem fast_cast_spec (c dmg heal hp : Nat) (arm : Int) (mana bhp st pt rt cost : Nat)
    (h : c ≤ mana) :
    settle (some { player := { hit_points := ((hp + heal : Nat) : Int), armour := arm,
                               mana := ((mana - c : Nat) : Int) },
                   boss := { hit_points := (bhp : Int) - (dmg : Nat), damage := 9 },
                   env := { shield_timer := st, poison_timer := pt, recharge_timer := rt },
                   cost := ((cost + c : Nat) : Int) })
      = fast_cast c dmg heal hp mana bhp st pt rt cost Outcome.stop (fun c => Outcome.win c)
          (fun hp mana bhp arm st pt rt cost =>
            Outcome.next (mk_battle hp mana bhp arm st pt rt cost)) := by
  rw [settle_mk]
  have hb : Nat.ble c mana = true := by rw [Nat.ble_eq]; exact h
  simp only [fast_cast, hb, Nat.add_eq, Nat.sub_eq, Nat.mul_eq]
  by_cases h1 : bhp ≤ dmg + 3 * positive pt
  · have hb1 : Nat.ble bhp (dmg + 3 * positive pt) = true := by rw [Nat.ble_eq]; exact h1
    rw [if_pos (by omega)]
    simp only [hb1]
  · have hb1 : Nat.ble bhp (dmg + 3 * positive pt) = false := by
      rw [← Bool.not_eq_true, Nat.ble_eq]; exact h1
    rw [if_neg (by omega)]
    simp only [hb1]
    by_cases h2 : hp + heal ≤ 9 - 7 * positive st
    · have hb2 : Nat.ble (hp + heal) (9 - 7 * positive st) = true := by
        rw [Nat.ble_eq]; exact h2
      rw [if_pos h2]
      simp only [hb2]
    · have hb2 : Nat.ble (hp + heal) (9 - 7 * positive st) = false := by
        rw [← Bool.not_eq_true, Nat.ble_eq]; exact h2
      rw [if_neg h2]
      simp only [hb2, mk_battle]
      have h3 : (bhp : Int) - (dmg : Nat) - ((3 * positive pt : Nat) : Int)
          = ((bhp - (dmg + 3 * positive pt) : Nat) : Int) := by omega
      rw [h3]

theorem settle_entry (a hp : Nat) (arm : Int) (mana bhp st pt rt cost : Nat) (hhp : 0 < hp) :
    settle ((play_impl
        { player := { hit_points := (hp : Int), armour := arm, mana := (mana : Int) },
          boss := { hit_points := (bhp : Int), damage := 9 },
          env := { shield_timer := st, poison_timer := pt, recharge_timer := rt },
          cost := (cost : Int) }).getD a none)
      = fast_entry a hp mana bhp st pt rt cost Outcome.stop (fun c => Outcome.win c)
          (fun hp mana bhp arm st pt rt cost =>
            Outcome.next (mk_battle hp mana bhp arm st pt rt cost)) := by
  have hpos : (0 : Int) < (hp : Int) := by omega
  rcases a with _ | _ | _ | _ | _ | a
  case succ.succ.succ.succ.succ =>
    simp [play_impl, next_actions, fast_entry, settle]
  · simp only [play_impl, next_actions, List.map, List.getD_cons_zero, play_impl_one_eq,
      fast_entry, magic_missile_cost, magic_missile]
    by_cases hc : 53 ≤ mana
    · rw [if_pos ⟨hpos, by omega⟩, ← fast_cast_spec 53 4 0 hp arm mana bhp st pt rt cost hc]
      congr 3
      all_goals first | rfl | (congr 1; omega)
    · rw [if_neg (by omega), fast_cast_stop _ _ _ _ _ _ _ _ _ _ hc]
      rfl
  · simp only [play_impl, next_actions, List.map, List.getD_cons_succ, List.getD_cons_zero,
      play_impl_one_eq, fast_entry, drain_cost, drain]
    by_cases hc : 73 ≤ mana
    · rw [if_pos ⟨hpos, by omega⟩, ← fast_cast_spec 73 2 2 hp arm mana bhp st pt rt cost hc]
      congr 3
      all_goals first | rfl | (congr 1; omega)
    · rw [if_neg (by omega), fast_cast_stop _ _ _ _ _ _ _ _ _ _ hc]
      rfl
  · simp only [play_impl, next_actions, List.map, List.getD_cons_succ, List.getD_cons_zero,
      play_impl_one_eq, fast_entry, shield_cost, shield]
    by_cases hc : 113 ≤ mana
    · rw [if_pos ⟨hpos, by omega⟩, ← fast_cast_spec 113 0 0 hp arm mana bhp 6 pt rt cost hc]
      congr 3
      all_goals first | rfl | (congr 1; omega)
    · rw [if_neg (by omega), fast_cast_stop _ _ _ _ _ _ _ _ _ _ hc]
      rfl
  · simp only [play_impl, next_actions, List.map, List.getD_cons_succ, List.getD_cons_zero,
      play_impl_one_eq, fast_entry, poison_cost, poison]
    by_cases hc : 173 ≤ mana
    · rw [if_pos ⟨hpos, by omega⟩, ← fast_cast_spec 173 0 0 hp arm mana bhp st 6 rt cost hc]
      congr 3
      all_goals first | rfl | (congr 1; omega)
    · rw [if_neg (by omega), fast_cast_stop _ _ _ _ _ _ _ _ _ _ hc]
      rfl
  · simp only [play_impl, next_actions, List.map, List.getD_cons_succ, List.getD_cons_zero,
      play_impl_one_eq, fast_entry, recharge_cost, recharge]
    by_cases hc : 229 ≤ mana
    · rw [if_pos ⟨hpos, by omega⟩, ← fast_cast_spec 229 0 0 hp arm mana bhp st pt 5 cost hc]
      congr 3
      all_goals first | rfl | (congr 1; omega)
    · rw [if_neg (by omega), fast_cast_stop _ _ _ _ _ _ _ _ _ _ hc]
      rfl

theorem play_impl_dead (b : Battle) (a : Nat) (h : b.player.hit_points ≤ 0) :
    (play_impl b).getD a none = none := by
  have hn : ∀ c act, play_impl_one b (c, act) = none := by
    intro c act
    rw [play_impl_one_eq, if_neg (by omega)]
  rcases a with _ | _ | _ | _ | _ | a <;> simp [play_impl, next_actions, hn]

theorem play_round_mk (hard : Bool) (hp mana bhp arm st pt rt cost a : Nat) :
    play_round hard (mk_battle hp mana bhp arm st pt rt cost) a
      = fast_round hard.toNat hp mana bhp st pt rt cost a := by
  unfold fast_round fast_node
  by_cases h1 : hp ≤ hard.toNat
  · have hb : Nat.ble hp hard.toNat = true := by rw [Nat.ble_eq]; exact h1
    simp only [hb]
    cases hard
    · simp only [Bool.toNat_false, Nat.le_zero] at h1
      subst h1
      unfold play_round
      cases hu : upkeep false (mk_battle 0 mana bhp arm st pt rt cost) with
      | none => rfl
      | some t =>
        simp only
        split_ifs
        · rfl
        · have ht : t.player.hit_points ≤ 0 := by
            simp only [upkeep, mk_battle, Bool.false_eq_true, if_false, Bool.false_and,
              Option.some.injEq] at hu
            rw [← hu, apply_effects_eq_spec]
            simp [apply_effects_spec]
          rw [play_impl_dead t a ht]
          rfl
    · simp only [Bool.toNat_true] at h1
      exact play_round_of_upkeep_none true _ a (upkeep_mk_dead hp mana bhp arm st pt rt cost h1)
  · have hb : Nat.ble hp hard.toNat = false := by
      rw [← Bool.not_eq_true, Nat.ble_eq]; exact h1
    simp only [hb, Nat.mul_eq, Nat.sub_eq, Nat.add_eq]
    have hu := upkeep_mk hard hp mana bhp arm st pt rt cost (by omega)
    unfold play_round
    rw [hu]
    simp only [is_dead]
    by_cases h2 : bhp ≤ 3 * positive pt
    · have hb2 : Nat.ble bhp (3 * positive pt) = true := by rw [Nat.ble_eq]; exact h2
      simp only [hb2]
      rw [if_pos (by rw [decide_eq_true_eq]; omega)]
    · have hb2 : Nat.ble bhp (3 * positive pt) = false := by
        rw [← Bool.not_eq_true, Nat.ble_eq]; exact h2
      simp only [hb2]
      rw [if_neg (by rw [decide_eq_true_eq]; omega)]
      have h3 : (bhp : Int) - ((3 * positive pt : Nat) : Int)
          = ((bhp - 3 * positive pt : Nat) : Int) := by omega
      rw [h3]
      exact settle_entry a (hp - hard.toNat) _ _ _ _ _ _ cost (by omega)

theorem not_hazard_mk (hard : Bool) (hp mana bhp arm st pt rt cost : Nat)
    (h1 : ¬ hp ≤ hard.toNat) (h2 : ¬ bhp ≤ 3 * positive pt) :
    ¬ Hazard hard (mk_battle hp mana bhp arm st pt rt cost) := by
  rintro ⟨t, hu, hd⟩
  rw [upkeep_mk hard hp mana bhp arm st pt rt cost (by omega), Option.some.injEq] at hu
  rw [← hu] at hd
  simp only [is_dead, decide_eq_true_eq] at hd
  omega

theorem not_hazard_mk_dead (hp mana bhp arm st pt rt cost : Nat) (h : hp ≤ 1) :
    ¬ Hazard true (mk_battle hp mana bhp arm st pt rt cost) := by
  rintro ⟨t, hu, _⟩
  rw [upkeep_mk_dead hp mana bhp arm st pt rt cost h] at hu
  simp at hu

theorem fast_cast_comp {α β : Type} (φ : α → β) (c dmg heal hp mana bhp st pt rt cost : Nat)
    (stop : α) (win : Nat → α) (next : Nat → Nat → Nat → Nat → Nat → Nat → Nat → Nat → α) :
    φ (fast_cast c dmg heal hp mana bhp st pt rt cost stop win next)
      = fast_cast c dmg heal hp mana bhp st pt rt cost (φ stop) (fun x => φ (win x))
          (fun a1 a2 a3 a4 a5 a6 a7 a8 => φ (next a1 a2 a3 a4 a5 a6 a7 a8)) := by
  unfold fast_cast
  split
  · rfl
  · split
    · rfl
    · split <;> rfl

theorem fast_entry_comp {α β : Type} (φ : α → β) (a hp mana bhp st pt rt cost : Nat)
    (stop : α) (win : Nat → α) (next : Nat → Nat → Nat → Nat → Nat → Nat → Nat → Nat → α) :
    φ (fast_entry a hp mana bhp st pt rt cost stop win next)
      = fast_entry a hp mana bhp st pt rt cost (φ stop) (fun x => φ (win x))
          (fun a1 a2 a3 a4 a5 a6 a7 a8 => φ (next a1 a2 a3 a4 a5 a6 a7 a8)) := by
  unfold fast_entry
  split <;> first | rfl | exact fast_cast_comp φ _ _ _ _ _ _ _ _ _ _ _ _ _

theorem fast_node_comp {α β : Type} (φ : α → β) (hardN hp mana bhp st pt rt : Nat)
    (skip hazard : α) (k : Nat → Nat → Nat → Nat → Nat → Nat → α) :
    φ (fast_node hardN hp mana bhp st pt rt skip hazard k)
      = fast_node hardN hp mana bhp st pt rt (φ skip) (φ hazard)
          (fun a1 a2 a3 a4 a5 a6 => φ (k a1 a2 a3 a4 a5 a6)) := by
  unfold fast_node
  split
  · rfl
  · split <;> rfl

theorem play_impl_length (t : Battle) : (play_impl t).length = 5 := by
  simp [play_impl, next_actions]

theorem children_eq (hard : Bool) (s : Battle) :
    children hard s
      = seq_of (play_round hard s 0) ++ (seq_of (play_round hard s 1) ++
        (seq_of (play_round hard s 2) ++ (seq_of (play_round hard s 3) ++
          seq_of (play_round hard s 4)))) := by
  unfold children
  cases hu : upkeep hard s with
  | none => simp [play_round_of_upkeep_none hard s _ hu, seq_of]
  | some t =>
    simp only
    by_cases hd : is_dead t.boss.hit_points = true
    · simp [play_round, hu, hd, seq_of]
    · simp only [hd, Bool.false_eq_true, if_false, play_round_of_upkeep hard s t _ hu hd]
      have hl : play_impl t = [(play_impl t).getD 0 none, (play_impl t).getD 1 none,
          (play_impl t).getD 2 none, (play_impl t).getD 3 none, (play_impl t).getD 4 none] := by
        simp [play_impl, next_actions]
      have hseq : ∀ x : Option Battle, (next_of x).toList = seq_of (settle x) := by
        intro x
        unfold next_of seq_of
        cases settle x <;> rfl
      conv_lhs => rw [hl]
      simp only [List.filterMap_cons, List.filterMap_nil]
      generalize (play_impl t).getD 0 none = x0
      generalize (play_impl t).getD 1 none = x1
      generalize (play_impl t).getD 2 none = x2
      generalize (play_impl t).getD 3 none = x3
      generalize (play_impl t).getD 4 none = x4
      rw [← hseq x0, ← hseq x1, ← hseq x2, ← hseq x3, ← hseq x4]
      cases next_of x0 <;> cases next_of x1 <;> cases next_of x2 <;> cases next_of x3 <;>
        cases next_of x4 <;> rfl

theorem fcount_eq (hard : Bool) : ∀ (r hp mana bhp arm st pt rt cost : Nat),
    fcount hard.toNat r hp mana bhp arm st pt rt cost
      = (layer_of hard r [mk_battle hp mana bhp arm st pt rt cost]).length := by
  intro r
  induction r with
  | zero => intro hp mana bhp arm st pt rt cost; simp [fcount, layer_of]
  | succ r ih =>
    intro hp mana bhp arm st pt rt cost
    have hround : ∀ a, (layer_of hard r
          (seq_of (play_round hard (mk_battle hp mana bhp arm st pt rt cost) a))).length
        = fast_node hard.toNat hp mana bhp st pt rt 0 0 (fun hp mana bhp st pt rt =>
            fast_entry a hp mana bhp st pt rt cost 0 (fun _ => 0) (fcount hard.toNat r)) := by
      intro a
      rw [play_round_mk]
      unfold fast_round
      rw [fast_node_comp (fun o : Outcome => (layer_of hard r (seq_of o)).length)]
      simp only [fast_entry_comp (fun o : Outcome => (layer_of hard r (seq_of o)).length)]
      simp only [seq_of, layer_of_nil, List.length_nil, ← ih]
    rw [layer_of, List.flatMap_singleton, children_eq]
    simp only [layer_of_append, List.length_append, hround]
    unfold fcount fast_node
    split
    · rfl
    · split
      · rfl
      · rfl

theorem fast_cast_of_true (c dmg heal hp mana bhp st pt rt cost : Nat)
    (w : Nat → Bool) (n : Nat → Nat → Nat → Nat → Nat → Nat → Nat → Nat → Bool)
    (W : Nat → Prop) (N : Nat → Nat → Nat → Nat → Nat → Nat → Nat → Nat → Prop)
    (hw : ∀ x, w x = true → W x)
    (hn : ∀ a1 a2 a3 a4 a5 a6 a7 a8, n a1 a2 a3 a4 a5 a6 a7 a8 = true → N a1 a2 a3 a4 a5 a6 a7 a8)
    (h : fast_cast c dmg heal hp mana bhp st pt rt cost true w n = true) :
    fast_cast c dmg heal hp mana bhp st pt rt cost True W N := by
  unfold fast_cast at h ⊢
  split
  · trivial
  · rename_i hb
    simp only [hb] at h
    split
    · rename_i hb1
      simp only [hb1] at h
      exact hw _ h
    · rename_i hb1
      simp only [hb1] at h
      split
      · trivial
      · rename_i hb2
        simp only [hb2] at h
        exact hn _ _ _ _ _ _ _ _ h

theorem win_ok_sound (lo hi r c : Nat) (h : win_ok lo hi r c = true) :
    r = 0 ∧ cost_between lo hi (c : Int) = true := by
  unfold win_ok at h
  cases r with
  | zero =>
    simp only [Bool.and_eq_true, Nat.ble_eq] at h
    refine ⟨rfl, ?_⟩
    simp only [cost_between, decide_eq_true_eq]
    omega
  | succ r => simp at h

/-- What a round from a battle on natural numbers yields, past the two tests
of the head of the iteration. -/
theorem play_round_mk_entry (hard : Bool) (hp mana bhp arm st pt rt cost a : Nat)
    (h1 : ¬ hp ≤ hard.toNat) (h2 : ¬ bhp ≤ 3 * positive pt) :
    play_round hard (mk_battle hp mana bhp arm st pt rt cost) a
      = fast_entry a (hp - hard.toNat) (mana + 101 * positive rt) (bhp - 3 * positive pt)
          (st - 1) (pt - 1) (rt - 1) cost Outcome.stop (fun c => Outcome.win c)
          (fun hp mana bhp arm st pt rt cost =>
            Outcome.next (mk_battle hp mana bhp arm st pt rt cost)) := by
  have hb1 : Nat.ble hp hard.toNat = false := by
    rw [← Bool.not_eq_true, Nat.ble_eq]; exact h1
  have hb2 : Nat.ble bhp (3 * positive pt) = false := by
    rw [← Bool.not_eq_true, Nat.ble_eq]; exact h2
  rw [play_round_mk]
  simp only [fast_round, fast_node, hb1, hb2, Nat.mul_eq, Nat.sub_eq, Nat.add_eq]

theorem fcheck_sound (hard : Bool) (lo hi : Nat) : ∀ (r hp mana bhp arm st pt rt cost : Nat),
    fcheck hard.toNat lo hi r hp mana bhp arm st pt rt cost = true →
    Good hard (cost_between lo hi) r (mk_battle hp mana bhp arm st pt rt cost) := by
  intro r
  induction r with
  | zero => intro hp mana bhp arm st pt rt cost _; exact good_zero _ _ _
  | succ r ih =>
    intro hp mana bhp arm st pt rt cost h
    unfold fcheck at h
    by_cases hfar : 10 * r + 11 ≤ bhp
    · apply good_far
      simp only [mk_battle]
      push_cast
      omega
    · have hbf : Nat.ble (Nat.add (Nat.mul 10 r) 11) bhp = false := by
        rw [← Bool.not_eq_true, Nat.ble_eq]; exact hfar
      simp only [hbf] at h
      unfold fast_node at h
      by_cases h1 : hp ≤ hard.toNat
      · have hb1 : Nat.ble hp hard.toNat = true := by rw [Nat.ble_eq]; exact h1
        simp only [hb1, Nat.beq_eq_true_eq] at h
        have hhard : hard = true := by
          cases hard
          · simp at h
          · rfl
        subst hhard
        simp only [Bool.toNat_true] at h1
        have hu := upkeep_mk_dead hp mana bhp arm st pt rt cost h1
        apply good_succ
        · exact not_hazard_mk_dead hp mana bhp arm st pt rt cost h1
        · intro a c hc
          rw [play_round_of_upkeep_none true _ a hu] at hc
          simp at hc
        · intro a v hv
          rw [play_round_of_upkeep_none true _ a hu] at hv
          simp at hv
      · have hb1 : Nat.ble hp hard.toNat = false := by
          rw [← Bool.not_eq_true, Nat.ble_eq]; exact h1
        simp only [hb1] at h
        by_cases h2 : bhp ≤ 3 * positive pt
        · have hb2 : Nat.ble bhp (Nat.mul 3 (positive pt)) = true := by
            rw [Nat.ble_eq]; exact h2
          simp only [hb2] at h
          exact absurd h (by simp)
        · have hb2 : Nat.ble bhp (Nat.mul 3 (positive pt)) = false := by
            rw [← Bool.not_eq_true, Nat.ble_eq]; exact h2
          simp only [hb2] at h
          simp only [Bool.and_eq_true, Nat.mul_eq, Nat.sub_eq, Nat.add_eq] at h
          obtain ⟨c0, c1, c2, c3, c4⟩ := h
          have hall : ∀ a, verdict hard lo hi r
              (play_round hard (mk_battle hp mana bhp arm st pt rt cost) a) := by
            intro a
            rw [play_round_mk_entry hard hp mana bhp arm st pt rt cost a h1 h2,
              fast_entry_comp (verdict hard lo hi r)]
            have key := fun c dmg heal st' pt' rt' =>
              fast_cast_of_true c dmg heal (hp - hard.toNat) (mana + 101 * positive rt)
                (bhp - 3 * positive pt) st' pt' rt' cost (win_ok lo hi r)
                (fcheck hard.toNat lo hi r)
                (fun x => verdict hard lo hi r (Outcome.win (x : Int)))
                (fun a1 a2 a3 a4 a5 a6 a7 a8 =>
                  verdict hard lo hi r (Outcome.next (mk_battle a1 a2 a3 a4 a5 a6 a7 a8)))
                (fun x hx => win_ok_sound lo hi r x hx)
                (fun a1 a2 a3 a4 a5 a6 a7 a8 hx => ih a1 a2 a3 a4 a5 a6 a7 a8 hx)
            rcases a with _ | _ | _ | _ | _ | a
            · exact key 53 4 0 _ _ _ c0
            · exact key 73 2 2 _ _ _ c1
            · exact key 113 0 0 _ _ _ c2
            · exact key 173 0 0 _ _ _ c3
            · exact key 229 0 0 _ _ _ c4
            · trivial
          apply good_succ
          · exact not_hazard_mk hard hp mana bhp arm st pt rt cost h1 h2
          · intro a c hc
            have := hall a
            rw [hc] at this
            exact this
          · intro a v hv
            have := hall a
            rw [hv] at this
            exact this

/-! ### The size of the layers -/

theorem flatMap_children_length (hard : Bool) : ∀ (l : List Battle),
    (l.flatMap (children hard)).length ≤ 5 * l.length := by
  intro l
  induction l with
  | nil => simp
  | cons s l ih =>
    simp only [List.flatMap_cons, List.length_append, List.length_cons]
    have := children_length_le hard s
    omega

theorem layer_length_le (hard : Bool) : ∀ (k : Nat) (l : List Battle),
    (layer_of hard k l).length ≤ 5 ^ k * l.length := by
  intro k
  induction k with
  | zero => intro l; simp [layer_of]
  | succ k ih =>
    intro l
    rw [layer_of]
    have h1 := ih (l.flatMap (children hard))
    have h2 := flatMap_children_length hard l
    calc (layer_of hard k (l.flatMap (children hard))).length
        ≤ 5 ^ k * (l.flatMap (children hard)).length := h1
      _ ≤ 5 ^ k * (5 * l.length) := Nat.mul_le_mul_left _ h2
      _ = 5 ^ (k + 1) * l.length := by rw [pow_succ, Nat.mul_assoc]

theorem layer_of_add (hard : Bool) : ∀ (a b : Nat) (l : List Battle),
    layer_of hard (a + b) l = layer_of hard b (layer_of hard a l) := by
  intro a
  induction a with
  | zero => intro b l; simp [layer_of]
  | succ a ih =>
    intro b l
    rw [show a + 1 + b = (a + b) + 1 by omega, layer_of, ih, layer_of]

/-- The battles dequeued and stored over nine rounds, from the size of the
layer six rounds away. -/
theorem search_room (hard : Bool) (b0 : Battle) (N : Nat)
    (h6 : (layer_of hard 6 [b0]).length ≤ N) :
    dequeued_upto hard b0 9 ≤ 3906 + 31 * N ∧ stored_upto hard b0 9 ≤ 3905 + 156 * N := by
  have e0 := layer_length_le hard 0 [b0]
  have e1 := layer_length_le hard 1 [b0]
  have e2 := layer_length_le hard 2 [b0]
  have e3 := layer_length_le hard 3 [b0]
  have e4 := layer_length_le hard 4 [b0]
  have e5 := layer_length_le hard 5 [b0]
  have e7 : (layer_of hard 7 [b0]).length ≤ 5 * N := by
    rw [show (7 : Nat) = 6 + 1 by rfl, layer_of_add]
    have := layer_length_le hard 1 (layer_of hard 6 [b0])
    omega
  have e8 : (layer_of hard 8 [b0]).length ≤ 25 * N := by
    rw [show (8 : Nat) = 6 + 2 by rfl, layer_of_add]
    have := layer_length_le hard 2 (layer_of hard 6 [b0])
    omega
  have e9 : (layer_of hard 9 [b0]).length ≤ 125 * N := by
    rw [show (9 : Nat) = 6 + 3 by rfl, layer_of_add]
    have := layer_length_le hard 3 (layer_of hard 6 [b0])
    omega
  simp only [List.length_singleton] at e0 e1 e2 e3 e4 e5
  norm_num at e0 e1 e2 e3 e4 e5
  simp only [dequeued_upto, stored_upto, Nat.reduceAdd]
  constructor <;> omega

/-! ### The search on the compiled battle -/

theorem compiled_battle_mk : compiled_battle = mk_battle 50 500 58 0 0 0 0 0 := rfl

/-- The search on the compiled battle, from the look-ahead over nine rounds,
the count of the battles six rounds away and one winning sequence of nine
entries: `play` with 1048576 slots reports a win at a cost within the bounds
of the look-ahead. -/
theorem compiled_search (hard : Bool) (lo hi : Nat) (ks : List Nat) (c0 : Int)
    (hcheck : fcheck hard.toNat lo hi 9 50 500 58 0 0 0 0 0 = true)
    (hcount : fcount hard.toNat 6 50 500 58 0 0 0 0 0 ≤ 6140)
    (hlen : ks.length = 9) (hwin : wins_with hard compiled_battle ks = some c0) :
    ∃ c, play hard 1048576 compiled_battle = some (true, c) ∧ (lo : Int) ≤ c ∧ c ≤ (hi : Int) := by
  have hgood := fcheck_sound hard lo hi 9 50 500 58 0 0 0 0 0 hcheck
  rw [← compiled_battle_mk] at hgood
  rw [fcount_eq, ← compiled_battle_mk] at hcount
  obtain ⟨hsafe, hquiet, hallowed⟩ := good_layers hard (cost_between lo hi) 9 compiled_battle hgood
  obtain ⟨hn, hroom⟩ := search_room hard compiled_battle 6140 hcount
  obtain ⟨ks0, k, s, hks, hreach, hround⟩ := wins_with_inv hard ks compiled_battle c0 hwin
  have hlen0 : ks0.length = 8 := by
    rw [hks] at hlen
    simp only [List.length_append, List.length_singleton] at hlen
    omega
  have hmem : s ∈ layer_of hard 8 [compiled_battle] :=
    (mem_layer_of hard compiled_battle 8 s).mpr ⟨ks0, hlen0, hreach⟩
  obtain ⟨c, hbfs, s1, k1, hs1, hr1⟩ := bfs_finds_win hard compiled_battle 1048576 1048575 8
    (fun k hk s hs => hsafe k (by omega) s hs)
    (fun k hk s hs => hquiet k (by omega) s hs)
    ⟨s, hmem, fun hq => hq k c0 hround⟩
    (le_trans hn (by norm_num)) (le_trans hroom (by norm_num))
  refine ⟨c, ?_, ?_⟩
  · rw [show (1048576 : Nat) = 1048575 + 1 by rfl, play_eq_bfs, hbfs]
  · have := hallowed 8 rfl s1 hs1 k1 c hr1
    simpa [cost_between] using this

/-- The battles six rounds away from the compiled battle, counted by kernel
evaluation. -/
theorem easy_count : fcount 0 6 50 500 58 0 0 0 0 0 = 6140 := by decide!

theorem hard_count : fcount 1 6 50 500 58 0 0 0 0 0 = 5293 := by decide!

theorem easy_check : fcheck 0 1269 1309 9 50 500 58 0 0 0 0 0 = true := by decide!

theorem hard_check : fcheck 1 1309 1309 9 50 500 58 0 0 0 0 0 = true := by decide!

theorem easy_sequence : wins_with false compiled_battle [3, 0, 4, 3, 2, 4, 3, 1, 0] = some 1269 := by
  decide

theorem hard_sequence : wins_with true compiled_battle [3, 4, 2, 3, 4, 2, 3, 0, 0] = some 1309 := by
  decide

/-- Easy mode on the compiled battle: a win, at a cost among those of the
wins of the ninth round. -/
theorem compiled_easy :
    ∃ c, play false 1048576 compiled_battle = some (true, c) ∧ 1269 ≤ c ∧ c ≤ 1309 := by
  have h := compiled_search false 1269 1309 [3, 0, 4, 3, 2, 4, 3, 1, 0] 1269
    easy_check (le_of_eq easy_count) rfl easy_sequence
  simpa using h

/-- Hard mode on the compiled battle: a win at 1309, the one cost of the wins
of the ninth round. -/
theorem compiled_hard :
    play true 1048576 compiled_battle = some (true, 1309) := by
  obtain ⟨c, h, h1, h2⟩ := compiled_search true 1309 1309 [3, 4, 2, 3, 4, 2, 3, 0, 0] 1309
    hard_check (by rw [show true.toNat = 1 by rfl, hard_count]; decide) rfl hard_sequence
  have : c = 1309 := by push_cast at h1 h2; omega
  rw [h, this]

/-! ### The loop past the write cursor -/

/-- With a capacity of at least 1 the call returns. -/
theorem play_run_total (hard : Bool) (depth : Nat) (original : Battle) (hdepth : 1 ≤ depth) :
    ∃ run, play_run hard depth original = some run := by
  obtain ⟨d, rfl⟩ : ∃ d, depth = d + 1 := ⟨depth - 1, by omega⟩
  have hsome : (play hard (d + 1) original).isSome = true := by
    rw [play_eq_bfs]; rfl
  unfold play at hsome
  rw [Option.isSome_map'] at hsome
  exact Option.isSome_iff_exists.mp hsome

/-- The whole run of the loop once only zero-initialised slots are left: easy
mode returns at the slot it is at, hard mode skips to the end of the queue. -/
theorem play_loop_exhausted_run (hard : Bool) : ∀ (n i : Nat) (queue : List Battle) (j : Nat),
    (∀ p, i ≤ p → p < queue.length → queue[p]? = some zero_battle) →
    n + i = queue.length →
    play_loop hard n i queue j
      = some { answer := (false, 0), queue := queue, j := j,
               i := if hard then queue.length else i } := by
  intro n
  induction n with
  | zero =>
    intro i queue j _ hlen
    have : i = queue.length := by omega
    cases hard <;> simp [play_loop, this]
  | succ n ih =>
    intro i queue j hz hlen
    have hi : queue[i]? = some zero_battle := hz i (le_refl _) (by omega)
    rw [play_loop_succ hard n i queue j zero_battle hi, upkeep_zero_battle]
    cases hard
    · simp [zero_battle, is_dead]
    · simp only [if_true]
      exact ih (i + 1) queue j (fun p hp hlt => hz p (by omega) hlt) (by omega)

/-- A run of the loop that stops at or past the write cursor answers
`(false, 0)`; in easy mode it stops at the cursor, in hard mode at the end of
the queue. -/
theorem play_loop_past_cursor (hard : Bool) : ∀ (n i : Nat) (w : List Battle) (r : Nat) (run : Run),
    i ≤ w.length → n + i = w.length + r →
    play_loop hard n i (w ++ List.replicate r zero_battle) w.length = some run →
    run.j ≤ run.i →
    run.answer = (false, 0) ∧ run.i = if hard then w.length + r else run.j := by
  intro n
  induction n with
  | zero =>
    intro i w r run hi hn h hji
    simp only [play_loop, Option.some.injEq] at h
    subst h
    refine ⟨rfl, ?_⟩
    cases hard
    · simp only [Bool.false_eq_true, if_false]; omega
    · simp only [if_true]; omega
  | succ n ih =>
    intro i w r run hi hn h hji
    rcases Nat.lt_or_ge i w.length with hlt | hge
    · have hb : (w ++ List.replicate r zero_battle)[i]? = some (w.get ⟨i, hlt⟩) := by
        rw [getElem?_padded_left w r i hlt]
        exact List.getElem?_eq_getElem hlt
      rw [play_loop_succ hard n i _ _ _ hb] at h
      cases hu : upkeep hard (w.get ⟨i, hlt⟩) with
      | none =>
        simp only [hu] at h
        exact ih (i + 1) w r run (by omega) (by omega) h hji
      | some t =>
        simp only [hu] at h
        by_cases hd : is_dead t.boss.hit_points = true
        · simp only [hd, if_true, Option.some.injEq] at h
          subst h
          simp only at hji
          omega
        · simp only [hd, Bool.false_eq_true, if_false] at h
          have hl := scan_length_le (play_impl t) r
          rw [play_inner_scan] at h
          cases hs : (scan (play_impl t) r).1 with
          | some a =>
            simp only [hs, Option.some.injEq] at h
            subst h
            simp only [List.length_append] at hji
            omega
          | none =>
            simp only [hs] at h
            have := ih (i + 1) _ _ run
              (by simp only [List.length_append]; omega)
              (by simp only [List.length_append]; omega) h hji
            refine ⟨this.1, ?_⟩
            rw [this.2]
            cases hard
            · simp
            · simp only [if_true, List.length_append]; omega
    · have hq : (w ++ List.replicate r zero_battle).length = w.length + r := by simp
      have hall : ∀ p, i ≤ p → p < (w ++ List.replicate r zero_battle).length →
          (w ++ List.replicate r zero_battle)[p]? = some zero_battle :=
        fun p hp hlt => getElem?_padded_right w r p (by omega) hlt
      rw [play_loop_exhausted_run hard (n + 1) i _ w.length hall (by omega)] at h
      simp only [Option.some.injEq] at h
      subst h
      refine ⟨rfl, ?_⟩
      cases hard
      · simp only [Bool.false_eq_true, if_false]; omega
      · simp only [if_true, hq]

/-- A call of `play` that stops at or past the write cursor answers
`(false, 0)`; in easy mode it stops at the cursor, in hard mode at the
capacity. -/
theorem play_run_past_cursor (hard : Bool) (depth : Nat) (original : Battle) (run : Run)
    (h : play_run hard depth original = some run) (hji : run.j ≤ run.i) :
    run.answer = (false, 0) ∧ run.i = if hard then depth else run.j := by
  cases depth with
  | zero => simp [play_run] at h
  | succ d =>
    unfold play_run at h
    simp only [List.length_replicate, Nat.zero_lt_succ, if_true] at h
    have hq : (List.replicate (d + 1) zero_battle).set 0 original
        = [original] ++ List.replicate d zero_battle := by
      simp [List.replicate_succ]
    rw [hq] at h
    have := play_loop_past_cursor hard (d + 1) 0 [original] d run (by simp)
      (by simp only [List.length_singleton]; omega) h hji
    simp only [List.length_singleton] at this
    refine ⟨this.1, ?_⟩
    rw [this.2]
    cases hard
    · simp
    · simp only [if_true]; omega

/-- What the hard-mode attrition leaves of a battle, written out. -/
theorem upkeep_hard (b : Battle) :
    upkeep true b
      = (if b.player.hit_points - 1 ≤ 0 then none
         else some (apply_effects
           { b with player := { b.player with hit_points := b.player.hit_points - 1 } })) := by
  simp [upkeep, is_dead]

/-! ## The claims -/

/-- C1, as stated, fails: easy-mode `play` with the program's capacity answers
`(true, 226)` on `slow_win_battle`, although three magic missiles, each
legal, defeat the boss at cost 159. -/
theorem play_not_cheapest :
    play false 1048576 slow_win_battle = some (true, 226) ∧
    wins_with false slow_win_battle [0, 0, 0] = some 159 ∧
    (159 : Int) < 226 :=
  ⟨play_true_mono false 32 1048576 slow_win_battle 226 (by decide) (by decide),
   by decide, by decide⟩

/-- C1, amended: when `play` returns `(true, c)`, `c` is the cost of a
sequence of legal actions that defeats the boss, and no sequence with fewer
actions defeats the boss. -/
theorem play_fewest_rounds (is_hard_mode : Bool) (depth : Nat) (original : Battle) (c : Int)
    (h : play is_hard_mode depth original = some (true, c)) :
    ∃ ks, wins_with is_hard_mode original ks = some c ∧
      ∀ ks' c', wins_with is_hard_mode original ks' = some c' → ks.length ≤ ks'.length := by
  cases depth with
  | zero => simp [play_zero] at h
  | succ d =>
    rw [play_eq_bfs] at h
    exact bfs_layered is_hard_mode original c (d + 1) d 0 [original] []
      (layered_init is_hard_mode original) (by simpa using h)

/-- C1, amended, at scenario 1 with capacity 16. -/
theorem play_fewest_rounds_witness :
    ∃ ks, wins_with false scenario_1 ks = some 226 ∧
      ∀ ks' c', wins_with false scenario_1 ks' = some c' → ks.length ≤ ks'.length :=
  play_fewest_rounds false 16 scenario_1 226 (by decide)

/-- C2, the code at the failing inputs.  From `upkeep_kill_battle`, poison then
magic missile store a battle of cost 226 whose boss dies in the next upkeep;
`play` dequeues it at index 15 and returns `(false, 0)`.  From
`initial_kill_battle` the boss dies in the first upkeep and `play` returns
`(false, 0)` in both modes. -/
theorem upkeep_kill_reported_as_loss :
    play false 32 upkeep_kill_battle = some (false, 0) ∧
    (play_run false 32 upkeep_kill_battle).map (fun run => (run.i, run.j, run.queue[run.i]?))
      = some (15, 23, reach false upkeep_kill_battle [3, 0]) ∧
    (reach false upkeep_kill_battle [3, 0]).map
        (fun s => (s.cost, is_dead (apply_effects s).boss.hit_points))
      = some (226, true) ∧
    (upkeep false initial_kill_battle).map (fun t => is_dead t.boss.hit_points) = some true ∧
    (upkeep true initial_kill_battle).map (fun t => is_dead t.boss.hit_points) = some true ∧
    play false 1048576 initial_kill_battle = some (false, 0) ∧
    play true 1048576 initial_kill_battle = some (false, 0) := by
  refine ⟨by decide, by decide, by decide, by decide, by decide, ?_, ?_⟩
  · rw [show (1048576 : Nat) = 1048575 + 1 from rfl, play_eq_bfs]
    decide
  · rw [show (1048576 : Nat) = 1048575 + 1 from rfl, play_eq_bfs]
    decide

/-- C3, as stated, fails: with all three timers running, a living player who
can pay still gets a successor for shield, poison and recharge, and the
successor has the timer back at 6, 6 and 5. -/
theorem recast_not_rejected :
    recast_battle.env.shield_timer > 0 ∧ recast_battle.env.poison_timer > 0 ∧
    recast_battle.env.recharge_timer > 0 ∧
    (play_impl recast_battle).getD 2 none ≠ none ∧
    (play_impl recast_battle).getD 3 none ≠ none ∧
    (play_impl recast_battle).getD 4 none ≠ none ∧
    ((play_impl recast_battle).getD 2 none).map (fun s => s.env.shield_timer) = some 6 ∧
    ((play_impl recast_battle).getD 3 none).map (fun s => s.env.poison_timer) = some 6 ∧
    ((play_impl recast_battle).getD 4 none).map (fun s => s.env.recharge_timer) = some 5 := by
  decide

/-- C3, amended: the shield, poison and recharge entries of `play_impl` are
present exactly when the player is alive and can pay, whatever the timers; the
successor pays the cost and sets the timer to 6, 6 and 5, an active timer
included. -/
theorem recast_refreshes_timer (b : Battle) :
    (play_impl b).getD 2 none
      = (if 0 < b.player.hit_points ∧ 113 ≤ b.player.mana then
          some { b with player := { b.player with mana := b.player.mana - 113 },
                        env := { b.env with shield_timer := 6 },
                        cost := b.cost + 113 }
         else none) ∧
    (play_impl b).getD 3 none
      = (if 0 < b.player.hit_points ∧ 173 ≤ b.player.mana then
          some { b with player := { b.player with mana := b.player.mana - 173 },
                        env := { b.env with poison_timer := 6 },
                        cost := b.cost + 173 }
         else none) ∧
    (play_impl b).getD 4 none
      = (if 0 < b.player.hit_points ∧ 229 ≤ b.player.mana then
          some { b with player := { b.player with mana := b.player.mana - 229 },
                        env := { b.env with recharge_timer := 5 },
                        cost := b.cost + 229 }
         else none) := by
  simp only [play_impl, next_actions, List.map, List.getD_cons_succ, List.getD_cons_zero,
    play_impl_one_eq]
  refine ⟨rfl, rfl, rfl⟩

/-- C4: `play_impl` yields five optional successors, in the order of the costs
53, 73, 113, 173, 229, each present if and only if the player is alive and has
at least that much mana. -/
theorem play_impl_legality (b : Battle) :
    (play_impl b).map Option.isSome
      = [ decide (0 < b.player.hit_points ∧ b.player.mana ≥ 53),
          decide (0 < b.player.hit_points ∧ b.player.mana ≥ 73),
          decide (0 < b.player.hit_points ∧ b.player.mana ≥ 113),
          decide (0 < b.player.hit_points ∧ b.player.mana ≥ 173),
          decide (0 < b.player.hit_points ∧ b.player.mana ≥ 229) ] := by
  simp only [play_impl, next_actions, List.map, play_impl_one_eq, magic_missile_cost, drain_cost,
    shield_cost, poison_cost, recharge_cost]
  by_cases h : 0 < b.player.hit_points
  · by_cases h1 : (53 : Int) ≤ b.player.mana <;> by_cases h2 : (73 : Int) ≤ b.player.mana <;>
    by_cases h3 : (113 : Int) ≤ b.player.mana <;> by_cases h4 : (173 : Int) ≤ b.player.mana <;>
    by_cases h5 : (229 : Int) ≤ b.player.mana <;> simp [h, h1, h2, h3, h4, h5]
  · simp [h]

/-- C5: each spell returns its fixed cost and changes only the listed fields:
mana and boss hit points (magic missile), mana and both hit points (drain),
mana and the one timer (shield, poison, recharge). -/
theorem spell_table (b : Battle) :
    magic_missile b
      = (53, { b with player := { b.player with mana := b.player.mana - 53 },
                      boss := { b.boss with hit_points := b.boss.hit_points - 4 } }) ∧
    drain b
      = (73, { b with player := { b.player with mana := b.player.mana - 73,
                                                hit_points := b.player.hit_points + 2 },
                      boss := { b.boss with hit_points := b.boss.hit_points - 2 } }) ∧
    shield b
      = (113, { b with player := { b.player with mana := b.player.mana - 113 },
                       env := { b.env with shield_timer := 6 } }) ∧
    poison b
      = (173, { b with player := { b.player with mana := b.player.mana - 173 },
                       env := { b.env with poison_timer := 6 } }) ∧
    recharge b
      = (229, { b with player := { b.player with mana := b.player.mana - 229 },
                       env := { b.env with recharge_timer := 5 } }) :=
  ⟨rfl, rfl, rfl, rfl, rfl⟩

/-- C6: `apply_effects` equals the reference definition `apply_effects_spec`,
and leaves the player's hit points, the boss's damage and the cost alone. -/
theorem apply_effects_reference (b : Battle) :
    apply_effects b = apply_effects_spec b ∧
    (apply_effects b).player.hit_points = b.player.hit_points ∧
    (apply_effects b).boss.damage = b.boss.damage ∧
    (apply_effects b).cost = b.cost := by
  rw [apply_effects_eq_spec]
  exact ⟨rfl, rfl, rfl, rfl⟩

/-- C7: `strike` lowers the player's hit points by `max (damage - armour) 1`,
which is at least 1, and changes nothing else. -/
theorem strike_floor (b : Battle) :
    strike b
      = { b with player := { b.player with
            hit_points := b.player.hit_points - max (b.boss.damage - b.player.armour) 1 } } ∧
    1 ≤ max (b.boss.damage - b.player.armour) 1 ∧
    (strike b).player.hit_points ≤ b.player.hit_points - 1 ∧
    (strike b).player.armour = b.player.armour ∧
    (strike b).player.mana = b.player.mana ∧
    (strike b).boss = b.boss ∧ (strike b).env = b.env ∧ (strike b).cost = b.cost := by
  refine ⟨rfl, le_max_right _ _, ?_, rfl, rfl, rfl, rfl, rfl⟩
  have h := le_max_right (b.boss.damage - b.player.armour) 1
  simp only [strike]
  omega

/-- C8: a successor of `play_impl` costs the battle's cost plus the fixed cost
of its entry, one of 53, 73, 113, 173, 229; `apply_effects` and `strike` keep
the cost; every battle stored in the frontier is reached by a sequence of
entries and costs the original cost plus the sum of their costs; the cost
never decreases along a path. -/
theorem cost_accounting (is_hard_mode : Bool) (depth : Nat) (original : Battle) :
    (∀ b k nb, (play_impl b).getD k none = some nb →
      nb.cost = b.cost + catalog_cost k ∧ catalog_cost k ∈ [53, 73, 113, 173, 229]) ∧
    (∀ b, (apply_effects b).cost = b.cost ∧ (strike b).cost = b.cost) ∧
    (∀ run, play_run is_hard_mode depth original = some run → ∀ p, p < run.j →
      ∃ s ks, run.queue[p]? = some s ∧ reach is_hard_mode original ks = some s ∧
        s.cost = original.cost + (ks.map catalog_cost).sum) ∧
    (∀ ks ks' s s', reach is_hard_mode original ks = some s →
      reach is_hard_mode original (ks ++ ks') = some s' → s.cost ≤ s'.cost) := by
  refine ⟨fun b k nb h => play_impl_cost b nb k h,
    fun b => ⟨apply_effects_cost b, strike_cost b⟩, ?_, ?_⟩
  · intro run hrun p hp
    obtain ⟨_, _, hq⟩ := play_run_frontier is_hard_mode
      (fun s => ∃ ks, reach is_hard_mode original ks = some s)
      (fun s k v ⟨ks, hks⟩ hv => ⟨ks ++ [k], reach_snoc is_hard_mode ks original s v k hks hv⟩)
      depth original ⟨[], rfl⟩ run hrun
    obtain ⟨s, hs, ks, hks⟩ := hq p hp
    exact ⟨s, ks, hs, hks, reach_cost is_hard_mode ks original s hks⟩
  · intro ks ks' s s' h1 h2
    obtain ⟨s0, h3, h4⟩ := reach_append_inv is_hard_mode ks ks' original s' h2
    rw [h1, Option.some.injEq] at h3
    subst h3
    rw [reach_cost is_hard_mode ks' s s' h4]
    have : 0 ≤ (ks'.map catalog_cost).sum :=
      List.sum_nonneg (by
        intro x hx
        obtain ⟨k, _, hk⟩ := List.mem_map.mp hx
        rw [← hk]; exact catalog_cost_nonneg k)
    omega

/-- C8 at scenario 1 with capacity 16: the battle stored at index 4 is reached
by a sequence of entries and costs the sum of their costs. -/
theorem cost_accounting_witness :
    ∃ run, play_run false 16 scenario_1 = some run ∧
      ∃ s ks, run.queue[4]? = some s ∧ reach false scenario_1 ks = some s ∧
        s.cost = scenario_1.cost + (ks.map catalog_cost).sum := by
  obtain ⟨run, h⟩ := Option.isSome_iff_exists.mp
    (by decide : (play_run false 16 scenario_1).isSome = true)
  have hj : (play_run false 16 scenario_1).map Run.j = some 11 := by decide
  rw [h] at hj
  simp only [Option.map_some', Option.some.injEq] at hj
  exact ⟨run, h, (cost_accounting false 16 scenario_1).2.2.1 run h 4 (by omega)⟩

/-- C9, as stated, fails: a timer on its last tick is positive, yet two calls of
`apply_effects` lower it by one only and apply its effect once. -/
theorem double_effects_last_tick :
    last_tick_battle.env.poison_timer > 0 ∧ last_tick_battle.env.recharge_timer > 0 ∧
    last_tick_battle.env.shield_timer > 0 ∧
    (apply_effects (apply_effects last_tick_battle)).env.poison_timer
      ≠ last_tick_battle.env.poison_timer - 2 ∧
    (apply_effects (apply_effects last_tick_battle)).boss.hit_points
      ≠ last_tick_battle.boss.hit_points - 6 ∧
    (apply_effects (apply_effects last_tick_battle)).player.mana
      ≠ last_tick_battle.player.mana + 202 ∧
    (apply_effects (apply_effects last_tick_battle)).env.shield_timer
      ≠ last_tick_battle.env.shield_timer - 2 := by
  decide

/-- C9, amended: two calls of `apply_effects` in a row lower a timer that is at
least 2 by exactly 2 and apply its effect twice (armour 7, boss down 6, mana up
202); a timer equal to 1 drops to 0 and its effect applies once (armour back
to 0, boss down 3, mana up 101). -/
theorem double_effects (b : Battle) :
    (2 ≤ b.env.shield_timer →
      (apply_effects (apply_effects b)).env.shield_timer = b.env.shield_timer - 2 ∧
      (apply_effects (apply_effects b)).player.armour = 7) ∧
    (b.env.shield_timer = 1 →
      (apply_effects (apply_effects b)).env.shield_timer = 0 ∧
      (apply_effects (apply_effects b)).player.armour = 0) ∧
    (2 ≤ b.env.poison_timer →
      (apply_effects (apply_effects b)).env.poison_timer = b.env.poison_timer - 2 ∧
      (apply_effects (apply_effects b)).boss.hit_points = b.boss.hit_points - 6) ∧
    (b.env.poison_timer = 1 →
      (apply_effects (apply_effects b)).env.poison_timer = 0 ∧
      (apply_effects (apply_effects b)).boss.hit_points = b.boss.hit_points - 3) ∧
    (2 ≤ b.env.recharge_timer →
      (apply_effects (apply_effects b)).env.recharge_timer = b.env.recharge_timer - 2 ∧
      (apply_effects (apply_effects b)).player.mana = b.player.mana + 202) ∧
    (b.env.recharge_timer = 1 →
      (apply_effects (apply_effects b)).env.recharge_timer = 0 ∧
      (apply_effects (apply_effects b)).player.mana = b.player.mana + 101) := by
  simp only [apply_effects_eq_spec, apply_effects_spec]
  refine ⟨?_, ?_, ?_, ?_, ?_, ?_⟩ <;> intro h
  · have h1 : b.env.shield_timer > 0 := by omega
    have h2 : b.env.shield_timer - 1 > 0 := by omega
    simp only [h1, h2, if_true, and_true]
    omega
  · simp [h]
  · have h1 : b.env.poison_timer > 0 := by omega
    have h2 : b.env.poison_timer - 1 > 0 := by omega
    simp only [h1, h2, if_true]
    constructor <;> omega
  · simp [h]
  · have h1 : b.env.recharge_timer > 0 := by omega
    have h2 : b.env.recharge_timer - 1 > 0 := by omega
    simp only [h1, h2, if_true]
    constructor <;> omega
  · simp [h]

/-- C9, amended, at a battle whose three timers are 6, 2 and 5. -/
theorem double_effects_witness :
    (apply_effects (apply_effects long_effects_battle)).env.shield_timer = 4 ∧
    (apply_effects (apply_effects long_effects_battle)).player.armour = 7 ∧
    (apply_effects (apply_effects long_effects_battle)).env.poison_timer = 0 ∧
    (apply_effects (apply_effects long_effects_battle)).boss.hit_points = 52 ∧
    (apply_effects (apply_effects long_effects_battle)).env.recharge_timer = 3 ∧
    (apply_effects (apply_effects long_effects_battle)).player.mana = 702 :=
  ⟨((double_effects long_effects_battle).1 (by decide)).1,
   ((double_effects long_effects_battle).1 (by decide)).2,
   ((double_effects long_effects_battle).2.2.1 (by decide)).1,
   ((double_effects long_effects_battle).2.2.1 (by decide)).2,
   ((double_effects long_effects_battle).2.2.2.2.1 (by decide)).1,
   ((double_effects long_effects_battle).2.2.2.2.1 (by decide)).2⟩

/-- C10: easy-mode `play` on scenario 1 returns `(true, 226)` with every
capacity of at least 16, the cost of poison (173) then magic missile (53). -/
theorem scenario_1_answer (depth : Nat) (h : 16 ≤ depth) :
    play false depth scenario_1 = some (true, 226) ∧
    wins_with false scenario_1 [3, 0] = some 226 ∧
    catalog_cost 3 + catalog_cost 0 = 226 :=
  ⟨play_true_mono false 16 depth scenario_1 226 (by decide) h, by decide, by decide⟩

/-- C10 at the program's capacity. -/
theorem scenario_1_answer_witness :
    play false 1048576 scenario_1 = some (true, 226) ∧
    wins_with false scenario_1 [3, 0] = some 226 ∧
    catalog_cost 3 + catalog_cost 0 = 226 :=
  scenario_1_answer 1048576 (by decide)

/-- C11. Scenario 2: `easy_mode_answer`, easy-mode `play` with 1048576 slots on
Player(50, 0, 500) against Boss(58, 9) with all timers 0 and cost 0, returns
with won = true; the cost it reports is that of a win in the ninth round,
between 1269 and 1309. -/
theorem easy_mode_answer_won :
    ∃ c, easy_mode_answer = some (true, c) ∧ 1269 ≤ c ∧ c ≤ 1309 :=
  compiled_easy

/-- C12: when, after the upkeep of the initial battle, the boss is alive and
the player has less than 53 mana, `play_impl` yields no successor for any of
the five entries and `play` returns `(false, 0)`, for every mode and every
capacity of at least 1, without a subscript out of range. -/
theorem unaffordable_dead_end (is_hard_mode : Bool) (depth : Nat) (original t : Battle)
    (hdepth : 1 ≤ depth) (hu : upkeep is_hard_mode original = some t)
    (hboss : 0 < t.boss.hit_points) (hmana : t.player.mana < 53) :
    play_impl t = [none, none, none, none, none] ∧
    play is_hard_mode depth original = some (false, 0) := by
  have himpl : play_impl t = [none, none, none, none, none] := by
    simp only [play_impl, next_actions, List.map, play_impl_one_eq, magic_missile_cost, drain_cost,
      shield_cost, poison_cost, recharge_cost]
    have h1 : ¬ (0 < t.player.hit_points ∧ (53 : Int) ≤ t.player.mana) := by omega
    have h2 : ¬ (0 < t.player.hit_points ∧ (73 : Int) ≤ t.player.mana) := by omega
    have h3 : ¬ (0 < t.player.hit_points ∧ (113 : Int) ≤ t.player.mana) := by omega
    have h4 : ¬ (0 < t.player.hit_points ∧ (173 : Int) ≤ t.player.mana) := by omega
    have h5 : ¬ (0 < t.player.hit_points ∧ (229 : Int) ≤ t.player.mana) := by omega
    simp only [h1, h2, h3, h4, h5, if_false]
  refine ⟨himpl, ?_⟩
  obtain ⟨d, rfl⟩ : ∃ d, depth = d + 1 := ⟨depth - 1, by omega⟩
  rw [play_eq_bfs, bfs]
  have hd : ¬ is_dead t.boss.hit_points = true := by
    simp only [is_dead, decide_eq_true_eq]; omega
  simp only [hu, hd, Bool.false_eq_true, if_false, himpl]
  have hs : scan [none, none, none, none, none] d = (none, []) := by
    simp [scan, settle]
  rw [hs]
  simp only [List.append_nil, List.length_nil, Nat.sub_zero]
  cases d <;> simp [bfs]

/-- C12 at a player with 52 mana, in hard mode with the program's capacity. -/
theorem unaffordable_dead_end_witness :
    play_impl (apply_effects
      { broke_battle with player := { broke_battle.player with hit_points := 49 } })
      = [none, none, none, none, none] ∧
    play true 1048576 broke_battle = some (false, 0) :=
  unaffordable_dead_end true 1048576 broke_battle _ (by decide) (by decide) (by decide)
    (by decide)

/-- C13: a surviving, non-winning successor met when the write cursor is at
the end of the queue makes the inner loop return `(false, 0)` with the queue
untouched, and `play` returns what the inner loop returns; the queue keeps its
length and the write cursor never passes it; easy-mode `play` with capacity 1
on the compiled battle returns `(false, 0)`. -/
theorem overflow_is_loss (is_hard_mode : Bool) (depth : Nat) (original : Battle) :
    (∀ cands queue j nb v, queue.length ≤ j → settle (some nb) = Outcome.next v →
      play_inner (some nb :: cands) queue j = Flow.returned (false, 0) queue j) ∧
    (∀ n i queue j b t answer queue' j', queue[i]? = some b →
      upkeep is_hard_mode b = some t → is_dead t.boss.hit_points = false →
      play_inner (play_impl t) queue j = Flow.returned answer queue' j' →
      play_loop is_hard_mode (n + 1) i queue j
        = some { answer := answer, queue := queue', j := j', i := i }) ∧
    (∀ run, play_run is_hard_mode depth original = some run →
      run.queue.length = depth ∧ run.j ≤ depth) ∧
    play false 1 compiled_battle = some (false, 0) := by
  refine ⟨?_, ?_, ?_, by decide⟩
  · intro cands queue j nb v hj hv
    simp only [settle] at hv
    split_ifs at hv with h1 h2
    have hnot : ¬ j < queue.length := by omega
    simp only [play_inner, h1, h2, hnot, Bool.false_eq_true, if_false]
  · intro n i queue j b t answer queue' j' hb hu hd hf
    rw [play_loop_succ is_hard_mode n i queue j b hb]
    simp only [hu, hd, hf, Bool.false_eq_true, if_false]
  · intro run hrun
    obtain ⟨h1, h2, _⟩ := play_run_frontier is_hard_mode (fun _ => True)
      (fun _ _ _ _ _ => trivial) depth original trivial run hrun
    exact ⟨h1, h2⟩

/-- C13 at the full queue of capacity 1: the magic-missile successor of the
compiled battle survives and does not win, and the inner loop returns
`(false, 0)`. -/
theorem overflow_is_loss_witness :
    play_inner [some { (magic_missile compiled_battle).2 with cost := 53 }]
      [compiled_battle] 1 = Flow.returned (false, 0) [compiled_battle] 1 :=
  (overflow_is_loss false 1 compiled_battle).1 [] [compiled_battle] 1
    { (magic_missile compiled_battle).2 with cost := 53 }
    (strike (apply_effects { (magic_missile compiled_battle).2 with cost := 53 }))
    (by decide) (by decide)

/-- C14: hard-mode attrition, on the outer loop of `play`.  A hard-mode
iteration that dequeues `b` subtracts 1 from the player's hit points before
the effects: when the player is then dead (`hit_points ≤ 1` as dequeued) the
loop goes on to the next slot with the queue and the write cursor untouched,
so the battle yields neither a return nor a successor; otherwise the upkeep
test, the candidates and the inner loop all run on the effects applied to the
battle with that one hit point less.  An easy-mode iteration runs them on the
effects applied to `b` as dequeued: nothing is subtracted.  The same is said of
the round (`upkeep`, `play_round`).  Hard-mode `play` on an initial battle with
at most 1 hit point returns `(false, 0)` for every capacity of at least 1,
whatever the boss. -/
theorem hard_mode_attrition (depth : Nat) (b : Battle) :
    (∀ n i queue j t, queue[i]? = some b →
      t = apply_effects
        { b with player := { b.player with hit_points := b.player.hit_points - 1 } } →
      play_loop true (n + 1) i queue j
        = if b.player.hit_points ≤ 1 then play_loop true n (i + 1) queue j
          else if is_dead t.boss.hit_points then
            some { answer := (false, 0), queue := queue, j := j, i := i }
          else
            match play_inner (play_impl t) queue j with
            | Flow.returned answer queue j =>
              some { answer := answer, queue := queue, j := j, i := i }
            | Flow.fallthrough queue j => play_loop true n (i + 1) queue j) ∧
    (∀ n i queue j t, queue[i]? = some b → t = apply_effects b →
      play_loop false (n + 1) i queue j
        = if is_dead t.boss.hit_points then
            some { answer := (false, 0), queue := queue, j := j, i := i }
          else
            match play_inner (play_impl t) queue j with
            | Flow.returned answer queue j =>
              some { answer := answer, queue := queue, j := j, i := i }
            | Flow.fallthrough queue j => play_loop false n (i + 1) queue j) ∧
    upkeep true b
      = (if b.player.hit_points - 1 ≤ 0 then none
         else some (apply_effects
           { b with player := { b.player with hit_points := b.player.hit_points - 1 } })) ∧
    upkeep false b = some (apply_effects b) ∧
    (∀ n i queue j, queue[i]? = some b → b.player.hit_points ≤ 1 →
      play_loop true (n + 1) i queue j = play_loop true n (i + 1) queue j) ∧
    (b.player.hit_points ≤ 1 → ∀ k, play_round true b k = Outcome.stop) ∧
    (b.player.hit_points ≤ 1 → 1 ≤ depth → play true depth b = some (false, 0)) := by
  have hup := upkeep_hard b
  have hnone : b.player.hit_points ≤ 1 → upkeep true b = none := by
    intro h
    rw [hup, if_pos (by omega)]
  refine ⟨?_, ?_, hup, by simp [upkeep], ?_, ?_, ?_⟩
  · intro n i queue j t hb ht
    rw [play_loop_succ true n i queue j b hb, hup]
    by_cases hhp : b.player.hit_points ≤ 1
    · rw [if_pos (by omega), if_pos hhp]
    · rw [if_neg (by omega), if_neg hhp, ← ht]
  · intro n i queue j t hb ht
    rw [play_loop_succ false n i queue j b hb]
    have : upkeep false b = some t := by rw [ht]; simp [upkeep]
    rw [this]
  · intro n i queue j hb hhp
    rw [play_loop_succ true n i queue j b hb, hnone hhp]
  · intro hhp k
    exact play_round_of_upkeep_none true b k (hnone hhp)
  · intro hhp hdepth
    obtain ⟨d, rfl⟩ : ∃ d, depth = d + 1 := ⟨depth - 1, by omega⟩
    rw [play_eq_bfs, bfs]
    simp only [hnone hhp]
    cases d <;> simp [bfs]

/-- C14 at a player with 1 hit point against a boss that is already dead, with
the program's capacity, and at the first iteration on scenario 1 with two
slots: the battle stored after the magic missile and the strike of 8 has 1 hit
point in hard mode and 2 in easy mode. -/
theorem hard_mode_attrition_witness :
    play true 1048576 last_breath_battle = some (false, 0) ∧
    play_loop true 2 0 [scenario_1, zero_battle] 1
      = some { answer := (false, 0),
               queue := [scenario_1,
                 { player := { hit_points := 1, armour := 0, mana := 197 },
                   boss := { hit_points := 9, damage := 8 },
                   env := { shield_timer := 0, poison_timer := 0, recharge_timer := 0 },
                   cost := 53 }],
               j := 2, i := 0 } ∧
    play_loop false 2 0 [scenario_1, zero_battle] 1
      = some { answer := (false, 0),
               queue := [scenario_1,
                 { player := { hit_points := 2, armour := 0, mana := 197 },
                   boss := { hit_points := 9, damage := 8 },
                   env := { shield_timer := 0, poison_timer := 0, recharge_timer := 0 },
                   cost := 53 }],
               j := 2, i := 0 } :=
  ⟨(hard_mode_attrition 1048576 last_breath_battle).2.2.2.2.2.2 (by decide) (by decide),
   ((hard_mode_attrition 2 scenario_1).1 1 0 [scenario_1, zero_battle] 1 _ rfl rfl).trans
     (by decide),
   ((hard_mode_attrition 2 scenario_1).2.1 1 0 [scenario_1, zero_battle] 1 _ rfl rfl).trans
     (by decide)⟩

/-- C15. Scenario 3: on the compiled battle at capacity 1048576 both searches
return a win, and the cost reported by hard mode, 1309, is at least the cost
reported by easy mode. -/
theorem hard_cost_ge_easy_cost :
    ∃ e h, easy_mode_answer = some (true, e) ∧ hard_mode_answer = some (true, h) ∧ e ≤ h := by
  obtain ⟨e, he, _, hle⟩ := compiled_easy
  exact ⟨e, 1309, he, compiled_hard, hle⟩

/-- C16, as stated, fails: in the easy-mode run on scenario 1 with capacity 16
the battle written at index 5 costs 229 and the one written after it, at index
6, costs 166. -/
theorem enqueue_not_cost_ordered :
    (play_run false 16 scenario_1).map
        (fun run => (run.j, (run.queue.map Battle.cost).take run.j))
      = some (11, [0, 53, 73, 113, 173, 229, 166, 186, 166, 186, 226]) ∧
    (166 : Int) < 229 := by
  decide

/-- C16, amended: every battle stored in the frontier other than the original
was stored by a round played from a battle stored at a smaller index, and
costs that battle's cost plus the fixed cost of the action cast, so the cost
does not decrease from a stored battle to the battles expanded from it; every
stored battle costs at least the original cost. -/
theorem enqueue_order_by_parent (is_hard_mode : Bool) (depth : Nat) (original : Battle)
    (run : Run) (h : play_run is_hard_mode depth original = some run) :
    (∀ p, 0 < p → p < run.j →
      ∃ q k s v, q < p ∧ run.queue[q]? = some s ∧ run.queue[p]? = some v ∧
        play_round is_hard_mode s k = Outcome.next v ∧
        v.cost = s.cost + catalog_cost k ∧ catalog_cost k ∈ [53, 73, 113, 173, 229]) ∧
    (∀ p, p < run.j → ∃ v, run.queue[p]? = some v ∧ original.cost ≤ v.cost) := by
  constructor
  · obtain ⟨w, hq, hj, _, hw⟩ := play_run_invariant is_hard_mode (Parented is_hard_mode)
      (fun w i b t r hw hb hu hd => parented_expand is_hard_mode w i b t r hw hb hu hd)
      depth original (by intro p hp0 hp; simp at hp; omega) run h
    intro p hp0 hp
    rw [hj] at hp
    obtain ⟨q, k, s, v, hqp, h1, h2, h3⟩ := hw p hp0 hp
    refine ⟨q, k, s, v, hqp, ?_, ?_, h3, play_round_next_cost is_hard_mode s v k h3⟩
    · rw [hq, List.getElem?_append_left (by omega)]; exact h1
    · rw [hq, List.getElem?_append_left hp]; exact h2
  · intro p hp
    obtain ⟨_, _, hq⟩ := play_run_frontier is_hard_mode
      (fun s => ∃ ks, reach is_hard_mode original ks = some s)
      (fun s k v ⟨ks, hks⟩ hv => ⟨ks ++ [k], reach_snoc is_hard_mode ks original s v k hks hv⟩)
      depth original ⟨[], rfl⟩ run h
    obtain ⟨s, hs, ks, hks⟩ := hq p hp
    refine ⟨s, hs, ?_⟩
    rw [reach_cost is_hard_mode ks original s hks]
    have : 0 ≤ (ks.map catalog_cost).sum :=
      List.sum_nonneg (by
        intro x hx
        obtain ⟨k, _, hk⟩ := List.mem_map.mp hx
        rw [← hk]; exact catalog_cost_nonneg k)
    omega

/-- C16, amended, at scenario 1 with capacity 16: the battle at index 6 was
stored by a round played from a battle at a smaller index. -/
theorem enqueue_order_by_parent_witness :
    ∃ run, play_run false 16 scenario_1 = some run ∧
      ∃ q k s v, q < 6 ∧ run.queue[q]? = some s ∧ run.queue[6]? = some v ∧
        play_round false s k = Outcome.next v ∧
        v.cost = s.cost + catalog_cost k ∧ catalog_cost k ∈ [53, 73, 113, 173, 229] := by
  obtain ⟨run, h⟩ := Option.isSome_iff_exists.mp
    (by decide : (play_run false 16 scenario_1).isSome = true)
  have hj : (play_run false 16 scenario_1).map Run.j = some 11 := by decide
  rw [h] at hj
  simp only [Option.map_some', Option.some.injEq] at hj
  exact ⟨run, h, (enqueue_order_by_parent false 16 scenario_1 run h).1 6 (by omega) (by omega)⟩

/-- C17: from an initial battle with armour 0 and shield timer 0, every battle
stored in the frontier, in either mode, has armour 7 if its shield timer is
positive and armour 0 otherwise; its armour is 0 or 7. -/
theorem armour_invariant (is_hard_mode : Bool) (depth : Nat) (original : Battle) (run : Run)
    (harmour : original.player.armour = 0) (hshield : original.env.shield_timer = 0)
    (h : play_run is_hard_mode depth original = some run) :
    ∀ p, p < run.j → ∃ s, run.queue[p]? = some s ∧
      (s.env.shield_timer > 0 → s.player.armour = 7) ∧
      (¬ s.env.shield_timer > 0 → s.player.armour = 0) ∧
      (s.player.armour = 0 ∨ s.player.armour = 7) := by
  obtain ⟨_, _, hq⟩ := play_run_frontier is_hard_mode ShieldOk
    (fun s k v hs hv => shield_ok_step is_hard_mode s v k hs hv)
    depth original (Or.inl ⟨hshield, harmour⟩) run h
  intro p hp
  obtain ⟨s, hs, hok⟩ := hq p hp
  refine ⟨s, hs, ?_⟩
  rcases hok with ⟨h0, ha⟩ | ⟨h135, ha⟩
  · exact ⟨fun hpos => by omega, fun _ => ha, Or.inl ha⟩
  · exact ⟨fun _ => ha, fun hneg => by omega, Or.inr ha⟩

/-- C17 at scenario 1 with capacity 16: the battle stored at index 3, after a
shield, has armour 7 and a positive shield timer. -/
theorem armour_invariant_witness :
    ∃ run, play_run false 16 scenario_1 = some run ∧
      ∃ s, run.queue[3]? = some s ∧
        (s.env.shield_timer > 0 → s.player.armour = 7) ∧
        (¬ s.env.shield_timer > 0 → s.player.armour = 0) ∧
        (s.player.armour = 0 ∨ s.player.armour = 7) := by
  obtain ⟨run, h⟩ := Option.isSome_iff_exists.mp
    (by decide : (play_run false 16 scenario_1).isSome = true)
  have hj : (play_run false 16 scenario_1).map Run.j = some 11 := by decide
  rw [h] at hj
  simp only [Option.map_some', Option.some.injEq] at hj
  exact ⟨run, h, armour_invariant false 16 scenario_1 run (by decide) (by decide) h 3 (by omega)⟩

/-- C18: with a capacity of at least 1, `play` returns: no subscript it reads
is out of range, the outer loop stops at an index of at most the capacity, so
at most that many battles are dequeued, the write cursor never passes the
capacity, and the queue keeps its length. -/
theorem play_terminates_in_bounds (is_hard_mode : Bool) (depth : Nat) (original : Battle)
    (hdepth : 1 ≤ depth) :
    ∃ run, play_run is_hard_mode depth original = some run ∧
      play is_hard_mode depth original = some run.answer ∧
      run.i ≤ depth ∧ run.j ≤ depth ∧ run.queue.length = depth := by
  obtain ⟨d, rfl⟩ : ∃ d, depth = d + 1 := ⟨depth - 1, by omega⟩
  have hsome : (play is_hard_mode (d + 1) original).isSome = true := by
    rw [play_eq_bfs]; rfl
  unfold play at hsome
  rw [Option.isSome_map'] at hsome
  obtain ⟨run, hrun⟩ := Option.isSome_iff_exists.mp hsome
  obtain ⟨h1, h2, _⟩ := play_run_frontier is_hard_mode (fun _ => True)
    (fun _ _ _ _ _ => trivial) (d + 1) original trivial run hrun
  refine ⟨run, hrun, by simp [play, hrun], ?_, h2, h1⟩
  unfold play_run at hrun
  simp only [List.length_replicate, Nat.zero_lt_succ, if_true] at hrun
  have := (play_loop_index is_hard_mode _ _ _ _ run hrun).2
  omega

/-- C18 at the compiled battle with the program's capacity, in hard mode. -/
theorem play_terminates_in_bounds_witness :
    ∃ run, play_run true 1048576 compiled_battle = some run ∧
      play true 1048576 compiled_battle = some run.answer ∧
      run.i ≤ 1048576 ∧ run.j ≤ 1048576 ∧ run.queue.length = 1048576 :=
  play_terminates_in_bounds true 1048576 compiled_battle (by decide)

/-- C19: when `play` returns `(true, c)`, some finite sequence of catalog
entries, each cast by a living player who can pay, played from the initial
battle under the mode's round rules, leaves the player alive after every
strike and kills the boss in the effects that follow its last cast, and `c` is
the initial cost plus the sum of the costs of its entries. -/
theorem play_win_sound (is_hard_mode : Bool) (depth : Nat) (original : Battle) (c : Int)
    (h : play is_hard_mode depth original = some (true, c)) :
    ∃ ks, wins_with is_hard_mode original ks = some c ∧
      (∀ k, k ∈ ks → k < 5) ∧
      c = original.cost + (ks.map catalog_cost).sum := by
  cases depth with
  | zero => simp [play_zero] at h
  | succ d =>
    rw [play_eq_bfs] at h
    obtain ⟨ks, hks, _⟩ := bfs_layered is_hard_mode original c (d + 1) d 0 [original] []
      (layered_init is_hard_mode original) (by simpa using h)
    have hc := wins_with_cost is_hard_mode ks original c hks
    exact ⟨ks, hks, hc.2, hc.1⟩

/-- C19 at the weak boss with capacity 32. -/
theorem play_win_sound_witness :
    ∃ ks, wins_with false slow_win_battle ks = some 226 ∧
      (∀ k, k ∈ ks → k < 5) ∧
      (226 : Int) = slow_win_battle.cost + (ks.map catalog_cost).sum :=
  play_win_sound false 32 slow_win_battle 226 (by decide)

/-- C20, the first assertion refuted: easy-mode `play` with 3 slots on a player
who can afford nothing returns `(false, 0)` at index 1, the first slot never
written, and never dequeues slot 2; hard mode on the same input runs to
index 3. -/
theorem unfilled_slots_not_all_dequeued :
    (play_run false 3 broke_battle).map (fun run => (run.answer, run.i, run.j))
      = some ((false, 0), 1, 1) ∧
    (play_run true 3 broke_battle).map (fun run => (run.answer, run.i, run.j))
      = some ((false, 0), 3, 1) := by
  decide

/-- C20, amended.  A zero-initialised slot yields neither a win nor a successor
in any round.  Dequeued by the outer loop, it makes easy mode return
`(false, 0)` there and then (its boss has 0 hit points after the effects), with
the queue and the write cursor untouched and the slots after it unread; hard
mode goes on to the next slot (its player is dead after the attrition).  So
once the loop has only zero-initialised slots left it returns `(false, 0)`, in
easy mode at the index it is at and in hard mode at the end of the queue.  For
every capacity of at least 1 and every initial battle `play` returns, and when
it stops at or past the write cursor, that is after every written battle has
been dequeued without a return, it returns `(false, 0)`: in easy mode at the
write cursor, in hard mode at the capacity. -/
theorem unfilled_slots_harmless (is_hard_mode : Bool) (depth : Nat) (original : Battle) :
    (∀ k, play_round is_hard_mode zero_battle k = Outcome.stop) ∧
    (∀ n i queue j, queue[i]? = some zero_battle →
      play_loop false (n + 1) i queue j
        = some { answer := (false, 0), queue := queue, j := j, i := i }) ∧
    (∀ n i queue j, queue[i]? = some zero_battle →
      play_loop true (n + 1) i queue j = play_loop true n (i + 1) queue j) ∧
    (∀ n i queue j,
      (∀ p, i ≤ p → p < queue.length → queue[p]? = some zero_battle) →
      n + i = queue.length →
      play_loop is_hard_mode n i queue j
        = some { answer := (false, 0), queue := queue, j := j,
                 i := if is_hard_mode then queue.length else i }) ∧
    (1 ≤ depth → ∃ run, play_run is_hard_mode depth original = some run ∧
      (run.j ≤ run.i →
        run.answer = (false, 0) ∧ play is_hard_mode depth original = some (false, 0) ∧
        run.i = if is_hard_mode then depth else run.j)) := by
  refine ⟨?_, ?_, ?_, ?_, ?_⟩
  · intro k
    cases is_hard_mode
    · have hu : upkeep false zero_battle = some zero_battle := by decide
      have hd : is_dead zero_battle.boss.hit_points = true := by decide
      simp only [play_round, hu, hd, if_true]
    · exact play_round_of_upkeep_none true zero_battle k (by simp [upkeep_zero_battle])
  · intro n i queue j hi
    rw [play_loop_succ false n i queue j zero_battle hi, upkeep_zero_battle]
    simp [zero_battle, is_dead]
  · intro n i queue j hi
    rw [play_loop_succ true n i queue j zero_battle hi, upkeep_zero_battle]
    simp
  · intro n i queue j hz hlen
    exact play_loop_exhausted_run is_hard_mode n i queue j hz hlen
  · intro hdepth
    obtain ⟨run, hrun⟩ := play_run_total is_hard_mode depth original hdepth
    refine ⟨run, hrun, fun hji => ?_⟩
    obtain ⟨h1, h2⟩ := play_run_past_cursor is_hard_mode depth original run hrun hji
    exact ⟨h1, by simp [play, hrun, h1], h2⟩

/-- C20 at three slots and a player who can afford nothing, in hard mode: the
call stops at index 3, past the write cursor 1, with `(false, 0)`. -/
theorem unfilled_slots_harmless_witness :
    ∃ run, play_run true 3 broke_battle = some run ∧ run.j ≤ run.i ∧
      run.answer = (false, 0) ∧ play true 3 broke_battle = some (false, 0) ∧ run.i = 3 := by
  obtain ⟨run, hrun, h⟩ := (unfilled_slots_harmless true 3 broke_battle).2.2.2.2 (by decide)
  have hval : play_run true 3 broke_battle
      = some { answer := (false, 0), queue := [broke_battle, zero_battle, zero_battle],
               j := 1, i := 3 } := by decide
  rw [hval, Option.some.injEq] at hrun
  subst hrun
  exact ⟨_, hval, by decide, h (by decide)⟩

end Day22
